import Mathlib

/-!
Verification of the fire7 reference-resolution and live-subscription engine.

The development shallowly embeds the JavaScript sources (helpers.js with
walkGet, walkSet, extractRefs, fillRefs; the facade get and unbind; the
Subscription class) into Lean.  JavaScript values are modelled by the
mutually inductive types JValue, JFields and JItems; JS object property
order is the field-list order; array holes produced by growing the length
of an array are modelled as undef entries; a thrown TypeError is modelled
by Except.error.  Firestore document references are modelled by the ref
constructor, which stands for an object exposing a truthy onSnapshot
capability through its prototype; its own enumerable data fields are
carried as a payload list.  Subscription instances stored inside the
subscriptions bookkeeping object are modelled by the subleaf constructor,
so that the very same walkSet and walkGet functions of the source operate
on that bookkeeping structure.
-/

mutual

/-- Model of a JavaScript value as handled by the fire7 sources. -/
inductive JValue where
  | undef : JValue
  | null : JValue
  | bool (b : Bool) : JValue
  | num (n : Int) : JValue
  | str (s : String) : JValue
  | obj (fields : JFields) : JValue
  | arr (items : JItems) : JValue
  | ref (id : Nat) (fields : JFields) : JValue
  | subleaf (maxRefDepth : Nat) (hasUnsub : Bool) (data : JValue)
      (references : JFields) (subscriptions : JValue) : JValue
  deriving DecidableEq, Repr

/-- Field list of a JS object: keys in property order. -/
inductive JFields where
  | nil : JFields
  | cons (k : String) (v : JValue) (rest : JFields) : JFields
  deriving DecidableEq, Repr

/-- Item list of a JS array. -/
inductive JItems where
  | nil : JItems
  | cons (v : JValue) (rest : JItems) : JItems
  deriving DecidableEq, Repr

end

/-- Decidable equality for Except results, used to evaluate the embedded
fallible operations on concrete inputs. -/
instance instDecEqExcept {e a : Type} [DecidableEq e] [DecidableEq a] :
    DecidableEq (Except e a) := fun x y =>
  match x, y with
  | .error u, .error v =>
      if h : u = v then .isTrue (by rw [h])
      else .isFalse (by simp [h])
  | .error _, .ok _ => .isFalse (by simp)
  | .ok _, .error _ => .isFalse (by simp)
  | .ok u, .ok v =>
      if h : u = v then .isTrue (by rw [h])
      else .isFalse (by simp [h])

/-- Convert a field list to an ordinary list of pairs. -/
def JFields.toList : JFields → List (String × JValue)
  | .nil => []
  | .cons k v rest => (k, v) :: rest.toList

/-- Build a field list from an ordinary list of pairs. -/
def JFields.ofList : List (String × JValue) → JFields
  | [] => .nil
  | (k, v) :: rest => .cons k v (JFields.ofList rest)

/-- Convert an item list to an ordinary list. -/
def JItems.toList : JItems → List JValue
  | .nil => []
  | .cons v rest => v :: rest.toList

/-- Build an item list from an ordinary list. -/
def JItems.ofList : List JValue → JItems
  | [] => .nil
  | v :: rest => .cons v (JItems.ofList rest)

/-- Number of items. -/
def JItems.length : JItems → Nat
  | .nil => 0
  | .cons _ rest => 1 + rest.length

/-- Item at a position, if any. -/
def JItems.get? : JItems → Nat → Option JValue
  | .nil, _ => none
  | .cons v _, 0 => some v
  | .cons _ rest, n + 1 => rest.get? n

/-- Replace the item at a position, if within bounds. -/
def JItems.set : JItems → Nat → JValue → JItems
  | .nil, _, _ => .nil
  | .cons _ rest, 0, w => .cons w rest
  | .cons v rest, n + 1, w => .cons v (rest.set n w)

/-- Append two item lists. -/
def JItems.append : JItems → JItems → JItems
  | .nil, ys => ys
  | .cons v rest, ys => .cons v (rest.append ys)

/-- n copies of a value. -/
def JItems.replicate : Nat → JValue → JItems
  | 0, _ => .nil
  | n + 1, v => .cons v (JItems.replicate n v)

/-- First-match field lookup; a missing property reads as undef. -/
def lookupField : JFields → String → JValue
  | .nil, _ => .undef
  | .cons k v rest, key => if k = key then v else lookupField rest key

/-- First-match field lookup returning an Option. -/
def findField : JFields → String → Option JValue
  | .nil, _ => none
  | .cons k v rest, key => if k = key then some v else findField rest key

/-- Property assignment on a field list: update in place or append. -/
def setField : JFields → String → JValue → JFields
  | .nil, key, v => .cons key v .nil
  | .cons k w rest, key, v =>
      if k = key then .cons key v rest else .cons k w (setField rest key v)

/-- JavaScript truthiness of a modelled value (NaN is not modelled). -/
def truthy : JValue → Bool
  | .undef => false
  | .null => false
  | .bool b => b
  | .num n => n != 0
  | .str s => s ≠ ""
  | .obj _ => true
  | .arr _ => true
  | .ref _ _ => true
  | .subleaf _ _ _ _ _ => true

/-- isObject of helpers.js: target is truthy and typeof target is object. -/
def isObject : JValue → Bool
  | .obj _ => true
  | .arr _ => true
  | .ref _ _ => true
  | .subleaf _ _ _ _ _ => true
  | _ => false

/-- isArray of helpers.js. -/
def isArray : JValue → Bool
  | .arr _ => true
  | _ => false

/-- isFirestoreRef of helpers.js: an object with a truthy onSnapshot.  The
ref constructor carries the prototype-provided onSnapshot capability; a
plain object is also detected when it happens to own a truthy onSnapshot
field, exactly as the duck-typed source check does.  A Subscription
instance owns no onSnapshot. -/
def isFirestoreRef : JValue → Bool
  | .ref _ _ => true
  | .obj fs => truthy (lookupField fs "onSnapshot")
  | _ => false

/-- Decimal digit character for a value below ten. -/
def digitChar (d : Nat) : Char := Char.ofNat (48 + d)

/-- Fuelled decimal rendering; the fuel bounds the division chain so the
definition is structural and kernel-computable. -/
def natToStrCharsF (fuel : Nat) (n : Nat) : List Char :=
  match fuel with
  | 0 => [digitChar n]
  | f + 1 =>
      if n < 10 then [digitChar n]
      else natToStrCharsF f (n / 10) ++ [digitChar (n % 10)]

/-- Decimal rendering of a natural number, as JS template interpolation
and JS property-key coercion produce it. -/
def natToStrChars (n : Nat) : List Char := natToStrCharsF n n

/-- Decimal rendering of a natural number as a string. -/
def natToStr (n : Nat) : String := String.mk (natToStrChars n)

/-- Is the character a decimal digit. -/
def isDigitChar (c : Char) : Bool := 48 ≤ c.toNat && c.toNat ≤ 57

/-- Value of a list of decimal digit characters, most significant first. -/
def digitsToNat (l : List Char) : Nat :=
  l.foldl (fun a c => a * 10 + (c.toNat - 48)) 0

/-- Canonical array-index parse of a property key: nonempty, all digits,
no leading zero except the key 0 itself.  JS array index access through a
string key hits an element exactly for such canonical keys. -/
def parseCanonIdx (s : String) : Option Nat :=
  match s.toList with
  | [] => none
  | c :: rest =>
      if (c :: rest).all isDigitChar && (c = '0' → rest = []) then
        some (digitsToNat (c :: rest))
      else none

/-- Read a property of a value by string key.  Reading from undefined or
null throws (Except.error); reading a missing property yields undef.
Array length and named array properties, and the instance properties of a
Subscription, are not exercised by the sources and read as undef. -/
def jRead : JValue → String → Except Unit JValue
  | .undef, _ => .error ()
  | .null, _ => .error ()
  | .obj fs, k => .ok (lookupField fs k)
  | .ref _ fs, k => .ok (lookupField fs k)
  | .arr xs, k =>
      .ok (match parseCanonIdx k with
        | some i => (xs.get? i).getD .undef
        | none => .undef)
  | _, _ => .ok (.undef)

/-- Overwrite or extend an item list so that position i holds v; positions
added below i are holes, modelled as undef. -/
def setGrow (xs : JItems) (i : Nat) (v : JValue) : JItems :=
  if i < xs.length then xs.set i v
  else xs.append ((JItems.replicate (i - xs.length) .undef).append
    (.cons v .nil))

/-- Write a property of a value by string key.  Writing to undefined or
null throws, and the sources form an ES module, so strict mode applies:
a property assignment on another primitive (number, string, boolean)
also throws a TypeError.  A named (non-index) key on an array is
accepted by JS; the model keeps the array unchanged, as array segments
only arise from bracket matches and no code path of the repository
writes or reads a named array property.  A Subscription instance
accepts the write; the modelled instance carries no extra fields, as no
code path reads such a field back. -/
def jWrite : JValue → String → JValue → Except Unit JValue
  | .undef, _, _ => .error ()
  | .null, _, _ => .error ()
  | .bool _, _, _ => .error ()
  | .num _, _, _ => .error ()
  | .str _, _, _ => .error ()
  | .obj fs, k, v => .ok (.obj (setField fs k v))
  | .ref i fs, k, v => .ok (.ref i (setField fs k v))
  | .arr xs, k, v =>
      .ok (match parseCanonIdx k with
        | some i => .arr (setGrow xs i v)
        | none => .arr xs)
  | .subleaf a b c d e, _, _ => .ok (.subleaf a b c d e)

/-- Read position i of a value, as the JS expression target[i] with a
numeric i does. -/
def jReadIdx : JValue → Nat → Except Unit JValue
  | .undef, _ => .error ()
  | .null, _ => .error ()
  | .obj fs, i => .ok (lookupField fs (natToStr i))
  | .ref _ fs, i => .ok (lookupField fs (natToStr i))
  | .arr xs, i => .ok ((xs.get? i).getD .undef)
  | _, _ => .ok (.undef)

/-- Write position i of a value, as the JS assignment target[i] = v with
a numeric i does.  Under the strict mode of the ES module an indexed
assignment on a primitive (number, string, boolean) throws a TypeError;
on undefined or null it throws as well. -/
def jWriteIdx : JValue → Nat → JValue → Except Unit JValue
  | .undef, _, _ => .error ()
  | .null, _, _ => .error ()
  | .bool _, _, _ => .error ()
  | .num _, _, _ => .error ()
  | .str _, _, _ => .error ()
  | .obj fs, i, v => .ok (.obj (setField fs (natToStr i) v))
  | .ref j fs, i, v => .ok (.ref j (setField fs (natToStr i) v))
  | .arr xs, i, v => .ok (.arr (setGrow xs i v))
  | .subleaf a b c d e, _, _ => .ok (.subleaf a b c d e)

/-- Length of a value as read by the walkSet length check.  Arrays and
strings expose their length; an object or reference exposes one when it
owns a numeric length property (a negative value clamps to zero, which
compares below every index bound exactly as the negative number does).
Elsewhere the length reads as undefined and the comparison with
undefined is false, so the growth branch is skipped. -/
def jLength : JValue → Option Nat
  | .arr xs => some xs.length
  | .str s => some s.toList.length
  | .obj fs =>
      (match lookupField fs "length" with
        | .num n => some n.toNat
        | _ => none)
  | .ref _ fs =>
      (match lookupField fs "length" with
        | .num n => some n.toNat
        | _ => none)
  | _ => none

/-- Word character of the regex class used by walkGet bracket conversion. -/
def isWordChar (c : Char) : Bool := c.isAlphanum || c = '_'

/-- Fuelled scanner for the bracket-to-dot regex replacement; the fuel
bounds the number of characters consumed so the definition is structural
and kernel-computable. -/
def bracketF (fuel : Nat) (l : List Char) : List Char :=
  match fuel, l with
  | 0, l => l
  | _ + 1, [] => []
  | f + 1, c :: rest =>
      if c = '[' then
        match rest.takeWhile isWordChar, rest.dropWhile isWordChar with
        | w :: ws, d :: r2 =>
            if d = ']' then '.' :: (w :: ws) ++ bracketF f r2
            else '[' :: bracketF f rest
        | _, _ => '[' :: bracketF f rest
      else c :: bracketF f rest

/-- Global left-to-right replacement of bracketed word runs by a dot and
the run, the char-level meaning of the first walkGet regex replace. -/
def bracketToDotChars (l : List Char) : List Char := bracketF l.length l

/-- Strip one leading dot, the second walkGet regex replace. -/
def stripLeadingDotChars : List Char → List Char
  | [] => []
  | c :: rest => if c = '.' then rest else c :: rest

/-- JS String.split on a dot: splitting the empty string yields one empty
piece, and every dot separates two pieces. -/
def splitDotChars : List Char → List (List Char)
  | [] => [[]]
  | c :: rest =>
      if c = '.' then [] :: splitDotChars rest
      else
        match splitDotChars rest with
        | s :: ss => (c :: s) :: ss
        | [] => [[c]]

/-- The walkGet path normalisation: indexes to properties, strip a leading
dot, split on dots. -/
def pathSegs (p : String) : List String :=
  (splitDotChars (stripLeadingDotChars (bracketToDotChars p.toList))).map
    (fun l => String.mk l)

/-- The walkSet path split (no bracket conversion there). -/
def splitDotStr (p : String) : List String :=
  (splitDotChars p.toList).map (fun l => String.mk l)

/-- The walkSet per-segment regex match against name[digits] at the end of
the segment, with a greedy nonempty name: the last opening bracket must be
followed by one or more digits and the closing bracket must end the
segment. -/
def parseArraySeg (s : String) : Option (String × Nat) :=
  match s.toList.reverse with
  | [] => none
  | c :: r2 =>
      if c = ']' then
        let ds := r2.takeWhile isDigitChar
        match ds, r2.drop ds.length with
        | _ :: _, b :: pre =>
            if b = '[' then
              if pre = [] then none
              else some (String.mk pre.reverse, digitsToNat ds.reverse)
            else none
        | _, _ => none
      else none

/-- Does the current value own the key, in the sense of the JS in
operator as walkGet uses it. -/
def keyIn : JValue → String → Bool
  | .obj fs, k => (findField fs k).isSome
  | .ref _ fs, k => (findField fs k).isSome
  | .arr xs, k =>
      match parseCanonIdx k with
      | some i => i < xs.length
      | none => false
  | _, _ => false

/-- Guarded property read used by walkGet once keyIn holds. -/
def readOwn : JValue → String → JValue
  | .obj fs, k => lookupField fs k
  | .ref _ fs, k => lookupField fs k
  | .arr xs, k =>
      (match parseCanonIdx k with
        | some i => (xs.get? i).getD .undef
        | none => .undef)
  | _, _ => (.undef)

/-- The walkGet traversal over the normalised segments: stop with undef as
soon as the current value is not a truthy object owning the key. -/
def walkGetSegs : JValue → List String → JValue
  | o, [] => o
  | o, k :: rest =>
      if truthy o && isObject o && keyIn o k then walkGetSegs (readOwn o k) rest
      else (.undef)

/-- walkGet of helpers.js: deeply get an object property by string path. -/
def walkGet (object : JValue) (path : String) : JValue :=
  walkGetSegs object (pathSegs path)

/-- The length-adjustment prelude of a walkSet array segment: make the
named slot an array when it is falsy, then assign its length up to the
index when it is shorter.  Growing an array appends holes; setting the
length of a plain object or reference is an ordinary property write;
assigning the length of a string throws under strict mode. -/
def walkSetArrPre (object : JValue) (arrayName : String) (arrayIndex : Nat) :
    Except Unit JValue := do
  let cur ← jRead object arrayName
  let object ← if truthy cur then pure object
    else jWrite object arrayName (.arr .nil)
  let cur2 ← jRead object arrayName
  match jLength cur2 with
  | some len =>
      if len < arrayIndex + 1 then
        match cur2 with
        | .arr xs =>
            jWrite object arrayName
              (.arr (xs.append (JItems.replicate (arrayIndex + 1 - len)
                .undef)))
        | .obj fs =>
            jWrite object arrayName
              (.obj (setField fs "length" (.num (arrayIndex + 1))))
        | .ref id fs =>
            jWrite object arrayName
              (.ref id (setField fs "length" (.num (arrayIndex + 1))))
        | _ => .error ()
      else pure object
  | none => pure object

/-- The final walkSet reduce step: write the value at the last segment and
return the updated container. -/
def walkSetLast (object : JValue) (seg : String) (value : JValue) :
    Except Unit JValue :=
  match parseArraySeg seg with
  | some (arrayName, arrayIndex) => do
      let object ← walkSetArrPre object arrayName arrayIndex
      let a ← jRead object arrayName
      let a2 ← jWriteIdx a arrayIndex value
      jWrite object arrayName a2
  | none => jWrite object seg value

/-- One walkSet reduce step over the remaining segments.  The result pairs
the updated current container with the value the JS reduce returns, which
is the container holding the final segment.  In-place mutation of the
source is shadowed by writing the recursively updated child back into its
slot, which coincides with JS semantics on tree-shaped inputs (the only
shapes the repository builds). -/
def walkSetSegs (object : JValue) (segs : List String) (value : JValue) :
    Except Unit (JValue × JValue) :=
  match segs with
  | [] => .ok (object, object)
  | [seg] => do
      let object ← walkSetLast object seg value
      .ok (object, object)
  | seg :: seg2 :: rest => do
      match parseArraySeg seg with
      | some (arrayName, arrayIndex) => do
          let object ← walkSetArrPre object arrayName arrayIndex
          let a ← jRead object arrayName
          let elt ← jReadIdx a arrayIndex
          let a2 ← if truthy elt then pure a
            else jWriteIdx a arrayIndex (.obj .nil)
          let object ← jWrite object arrayName a2
          let child ← jReadIdx a2 arrayIndex
          let res ← walkSetSegs child (seg2 :: rest) value
          let a3 ← jWriteIdx a2 arrayIndex res.1
          let object ← jWrite object arrayName a3
          .ok (object, res.2)
      | none => do
          let cur ← jRead object seg
          let object ← if truthy cur then pure object
            else jWrite object seg (.obj .nil)
          let child ← jRead object seg
          let res ← walkSetSegs child (seg2 :: rest) value
          let object ← jWrite object seg res.1
          .ok (object, res.2)

/-- walkSet of helpers.js: deeply set a property by string path.  The
first component of the result is the updated root (the in-place mutation),
the second is the value the JS function returns. -/
def walkSet (object : JValue) (path : String) (value : JValue) :
    Except Unit (JValue × JValue) :=
  walkSetSegs object (splitDotStr path) value

/-- A scanned reference entry: bookkeeping path and the reference value. -/
abbrev RefEntry := String × JValue

/-- The startPath computation of extractRefs: prepend the current path and
a dot unless the current path is empty. -/
def joinProp (currentPath : String) (prop : String) : String :=
  (if currentPath = "" then "" else currentPath ++ ".") ++ prop

/-- The array-item path computation of extractRefs. -/
def joinIdx (currentPath : String) (i : Nat) : String :=
  currentPath ++ "[" ++ natToStr i ++ "]"

mutual

/-- extractRefs of helpers.js: collect every reference field of the value,
appending to the accumulator, without descending into a detected
reference.  A Subscription instance is never scanned by the repository;
its modelled scan contributes nothing. -/
def extractRefs (obj : JValue) (currentPath : String) (subs : List RefEntry) :
    List RefEntry :=
  match obj with
  | .arr items => extractItems items currentPath 0 subs
  | .obj fields => extractProps fields currentPath subs
  | .ref _ fields => extractProps fields currentPath subs
  | _ => subs

/-- The indexed loop of extractRefs over an array. -/
def extractItems (items : JItems) (currentPath : String) (i : Nat)
    (subs : List RefEntry) : List RefEntry :=
  match items with
  | .nil => subs
  | .cons x rest =>
      extractItems rest currentPath (i + 1)
        (if isObject x then
          if isFirestoreRef x then subs ++ [(joinIdx currentPath i, x)]
          else extractRefs x (joinIdx currentPath i) subs
        else subs)

/-- The for-in loop of extractRefs over own enumerable properties. -/
def extractProps (fields : JFields) (currentPath : String)
    (subs : List RefEntry) : List RefEntry :=
  match fields with
  | .nil => subs
  | .cons k v rest =>
      extractProps rest currentPath
        (if isObject v then
          if isFirestoreRef v then subs ++ [(joinProp currentPath k, v)]
          else extractRefs v (joinProp currentPath k) subs
        else subs)

end

/-- One structural step into a value: an object property or an array
position. -/
inductive PStep where
  | fld (k : String) : PStep
  | idx (i : Nat) : PStep
deriving Repr, DecidableEq

/-- Render a structural address into the path-string notation extractRefs
builds, continuing from an already rendered current path. -/
def renderFrom (currentPath : String) (addr : List PStep) : String :=
  addr.foldl
    (fun acc step =>
      match step with
      | .fld k => joinProp acc k
      | .idx i => joinIdx acc i)
    currentPath

/-- Structural lookup of a value at an address. -/
def structGet : JValue → List PStep → Option JValue
  | v, [] => some v
  | .obj fs, .fld k :: rest =>
      (match findField fs k with
        | some w => structGet w rest
        | none => none)
  | .ref _ fs, .fld k :: rest =>
      (match findField fs k with
        | some w => structGet w rest
        | none => none)
  | .arr xs, .idx i :: rest =>
      (match xs.get? i with
        | some w => structGet w rest
        | none => none)
  | _, _ => none

/-- An address-instrumented entry produced by the scanner shadow. -/
abbrev ARefEntry := List PStep × JValue

mutual

/-- Structural shadow of extractRefs: the same recursion, recording the
structural address of every detected reference instead of the path
string. -/
def extractRefsA (obj : JValue) : List ARefEntry :=
  match obj with
  | .arr items => extractItemsA items 0
  | .obj fields => extractPropsA fields
  | .ref _ fields => extractPropsA fields
  | _ => []

/-- Structural shadow of the array loop. -/
def extractItemsA (items : JItems) (i : Nat) : List ARefEntry :=
  match items with
  | .nil => []
  | .cons x rest =>
      (if isObject x then
        if isFirestoreRef x then [([PStep.idx i], x)]
        else (extractRefsA x).map (fun e => (PStep.idx i :: e.1, e.2))
      else []) ++ extractItemsA rest (i + 1)

/-- Structural shadow of the property loop. -/
def extractPropsA (fields : JFields) : List ARefEntry :=
  match fields with
  | .nil => []
  | .cons k v rest =>
      (if isObject v then
        if isFirestoreRef v then [([PStep.fld k], v)]
        else (extractRefsA v).map (fun e => (PStep.fld k :: e.1, e.2))
      else []) ++ extractPropsA rest

end

/-- Drop the first n characters of a string, as JS slice(n) does on the
ASCII paths the scanner builds. -/
def strDrop (s : String) (n : Nat) : String := String.mk (s.toList.drop n)

/-- The synthetic root wrapper fillRefs scans and splices through. -/
def wrapData (obj : JValue) : JValue := .obj (.cons "data" obj .nil)

/-- Model of Promise.all over the per-reference fetches: the fetched
documents in order, or the failure of any one of them.  All requests are
issued before any is awaited; the pure model keeps only the outcome.  The
converter result (document data plus its id) is what the fetch
environment returns. -/
def refFetchAll (fetch : JValue → Except Unit JValue) :
    List RefEntry → Except Unit (List JValue)
  | [] => .ok []
  | e :: rest => do
      let d ← fetch e.2
      let ds ← refFetchAll fetch rest
      .ok (d :: ds)

/-- One splice of fillRefs: walkSet on a fresh wrapper object around the
current value, keeping the wrapper field afterwards.  The source discards
each fresh wrapper, so a write that lands on a wrapper property itself (a
single plain path segment) leaves the current value untouched; every
deeper write mutates the current value in place and is kept through the
wrapper field. -/
def spliceOne (cur : JValue) (path : String) (result : JValue) :
    Except Unit JValue :=
  match splitDotStr path with
  | [seg] =>
      match parseArraySeg seg with
      | none => .ok cur
      | some _ => do
          let r ← walkSet (wrapData cur) path result
          jRead r.1 "data"
  | _ => do
      let r ← walkSet (wrapData cur) path result
      jRead r.1 "data"

/-- The splice loop of one fillRefs pass over the zipped entries and
fetched documents; a thrown splice aborts the loop, leaving the splices
already applied in place. -/
def spliceAll (cur : JValue) : List (RefEntry × JValue) → Except JValue JValue
  | [] => .ok cur
  | (e, d) :: rest =>
      match spliceOne cur (strDrop e.1 5) d with
      | .error _ => .error cur
      | .ok cur2 => spliceAll cur2 rest

/-- fillRefs of helpers.js, as the eventual value of the object it
mutates: while the depth budget is positive, scan the wrapped value with
the synthetic data prefix, fetch every found reference (a failed fetch
rejects the whole pass, leaving the object exactly as the previous passes
left it and stopping the recursion), splice each fetched document at its
sliced path, then recurse with the budget decremented.  The update
callback has no effect on the value and is not modelled. -/
def fillRefsModel (fetch : JValue → Except Unit JValue) (obj : JValue) :
    Nat → JValue
  | 0 => obj
  | d + 1 =>
      let refs := extractRefs (wrapData obj) "data" []
      match refFetchAll fetch refs with
      | .error _ => obj
      | .ok results =>
          match spliceAll obj (refs.zip results) with
          | .error partialObj => partialObj
          | .ok obj2 => fillRefsModel fetch obj2 d

/-- get of the facade (single-document branch): await the document fetch
(whose failure rejects the whole call), take the data or null by
existence, launch fillRefs without awaiting it when the data is truthy,
and resolve immediately with the data.  The first component is the value
the caller receives when the call resolves, the second the eventual value
of that same object once the detached fillRefs work settles; a reference
fetch failure inside fillRefs never rejects this call. -/
def getModelSingle (docFetch : Except Unit (Option JValue))
    (refFetch : JValue → Except Unit JValue) (maxRefDepth : Nat) :
    Except Unit (JValue × JValue) := do
  let d ← docFetch
  let data := match d with
    | some v => v
    | none => JValue.null
  if truthy data then .ok (data, fillRefsModel refFetch data maxRefDepth)
  else .ok (data, data)

mutual

/-- Computable structural size of a value, the fuel bound for the
recursive teardown of subscription trees. -/
def jvSize : JValue → Nat
  | .undef => 1
  | .null => 1
  | .bool _ => 1
  | .num _ => 1
  | .str _ => 1
  | .obj fs => 1 + jfSize fs
  | .arr xs => 1 + jiSize xs
  | .ref _ fs => 1 + jfSize fs
  | .subleaf _ _ data refs subs => 1 + jvSize data + jfSize refs + jvSize subs

/-- Computable structural size of a field list. -/
def jfSize : JFields → Nat
  | .nil => 1
  | .cons _ v rest => 1 + jvSize v + jfSize rest

/-- Computable structural size of an item list. -/
def jiSize : JItems → Nat
  | .nil => 1
  | .cons v rest => 1 + jvSize v + jiSize rest

end

/-- Observable actions of a live subscription node, in emission order.
Contexts name a nested child by the chain of bookkeeping paths from the
node that is processing. -/
inductive SubEvent where
  | setData (v : JValue) : SubEvent
  | writeTarget (v : JValue) : SubEvent
  | release (ctx : List String) : SubEvent
  | bindChild (ctx : List String) : SubEvent
  | notify : SubEvent
deriving DecidableEq, Repr

mutual

/-- Fuelled Subscription.unbind of subscription.js: unbind all children
first (walkGet them out of the subscriptions bookkeeping object by their
recorded paths, recursively), then release the remote handle if one is
active.  Unbinding anything that is not a Subscription instance throws,
as the JS method call on undefined does.  The fuel only bounds the
recursion depth; public wrappers supply a sufficient amount. -/
def unbindNodeF (fuel : Nat) (ctx : List String) (s : JValue) :
    Except Unit (JValue × List SubEvent) :=
  match fuel with
  | 0 => .error ()
  | f + 1 =>
      match s with
      | .subleaf d hU data refs subsVal => do
          let tr ← unbindChildrenF f ctx subsVal refs
          .ok (.subleaf d hU data .nil (.obj .nil),
            tr ++ if hU then [.release ctx] else [])
      | _ => .error ()

/-- Fuelled loop of Subscription.#unbindReferences over the recorded
reference entries: look each child up by its path and unbind it in
order. -/
def unbindChildrenF (fuel : Nat) (ctx : List String) (subsVal : JValue) :
    JFields → Except Unit (List SubEvent)
  | .nil => .ok []
  | .cons p _ rest =>
      match fuel with
      | 0 => .error ()
      | f + 1 => do
          let r ← unbindNodeF f (ctx ++ [p]) (walkGet subsVal p)
          let tr2 ← unbindChildrenF f ctx subsVal rest
          .ok (r.2 ++ tr2)

end

/-- Subscription.unbind with sufficient fuel. -/
def unbindNode (ctx : List String) (s : JValue) :
    Except Unit (JValue × List SubEvent) :=
  unbindNodeF (jvSize s) ctx s

/-- Subscription.#unbindReferences with sufficient fuel. -/
def unbindChildren (ctx : List String) (subsVal : JValue) (refs : JFields) :
    Except Unit (List SubEvent) :=
  unbindChildrenF (jvSize subsVal + jfSize refs) ctx subsVal refs

/-- The child-creation loop of Subscription.#bindReferences: for every
scanned reference entry create a child Subscription whose query is the
reference, with the depth budget decremented, bind it (which registers
the remote handle), and store it in the bookkeeping object under the
entry path. -/
def bindRefsLoop (ctx : List String) (depth : Nat) (m : JValue) :
    List RefEntry → Except Unit (JValue × List SubEvent)
  | [] => .ok (m, [])
  | (p, _) :: rest => do
      let child := JValue.subleaf (depth - 1) true .undef .nil (.obj .nil)
      let m2 ← walkSet m p child
      let r ← bindRefsLoop ctx depth m2.1 rest
      .ok (r.1, .bindChild (ctx ++ [p]) :: r.2)

/-- Subscription.#bindReferences in single-document mode: only when the
remaining depth budget is positive, re-scan the current data, reset the
bookkeeping object, bind one child per discovered reference and record
the discovered references; otherwise leave the bookkeeping state
untouched. -/
def bindRefsSingle (depth : Nat) (data : JValue) (subs0 : JValue)
    (refs0 : JFields) : Except Unit (JValue × JFields × List SubEvent) :=
  if 0 < depth then do
    let refs := extractRefs data "" []
    let r ← bindRefsLoop [] depth (.obj .nil) refs
    .ok (r.1, JFields.ofList refs, r.2)
  else .ok (subs0, refs0, [])

/-- The mirrored value a document snapshot carries: its data, or null for
a missing document (doc.data() or null). -/
def snapData : Option JValue → JValue
  | some v => if truthy v then v else .null
  | none => .null

/-- Snapshot handler of Subscription.#bindDocument: set the mirrored data
to the snapshot data or null, write it to the binding target, unbind all
current children, rebind children from the new data, then notify.  The
result carries the updated target, the updated subscription node and the
emitted events in order. -/
def processSnapshot (target : JValue) (tprop : String) (s : JValue)
    (snap : Option JValue) : Except Unit (JValue × JValue × List SubEvent) :=
  match s with
  | .subleaf depth hU _ refs subsVal => do
      let newData := snapData snap
      let t2 ← walkSet target tprop newData
      let uTr ← unbindChildrenF (jvSize subsVal + jfSize refs) [] subsVal refs
      let r ← bindRefsSingle depth newData (.obj .nil) .nil
      .ok (t2.1, .subleaf depth hU newData r.2.1 r.1,
        .setData newData :: .writeTarget newData ::
          (uTr ++ r.2.2 ++ [.notify]))
  | _ => .error ()

/-- State of a collection-mode Subscription: the mirrored list and the
index-aligned bookkeeping structures, plus the depth budget. -/
structure CollSub where
  data : List JValue
  subscriptions : List JValue
  references : List JFields
  maxRefDepth : Nat
deriving DecidableEq, Repr

/-- JS splice(i, 0, a): insert at the position, clamped to the length. -/
def listInsert {α : Type} (l : List α) (i : Nat) (a : α) : List α :=
  l.take i ++ a :: l.drop i

/-- JS splice(i, 1): remove the element at the position if it exists. -/
def listRemove {α : Type} (l : List α) (i : Nat) : List α :=
  l.take i ++ l.drop (i + 1)

/-- Subscription.#bindReferences in collection mode, scoped to one item:
only when the depth budget is positive, scan the item, reset its
bookkeeping slot, bind one child per discovered reference and record the
references in the slot. -/
def bindRefsAt (c : CollSub) (i : Nat) : Except Unit (CollSub × List SubEvent) :=
  if 0 < c.maxRefDepth then do
    let d := (c.data.get? i).getD .undef
    let refs := extractRefs d "" []
    let r ← bindRefsLoop [natToStr i] c.maxRefDepth (.obj .nil) refs
    .ok ({ c with
      subscriptions := c.subscriptions.set i r.1,
      references := c.references.set i (JFields.ofList refs) }, r.2)
  else .ok (c, [])

/-- Subscription.#addItem: insert the document into the mirrored list and
empty placeholders into the two parallel structures at the same index,
then bind the children of the new item. -/
def addItem (c : CollSub) (i : Nat) (d : JValue) :
    Except Unit (CollSub × List SubEvent) :=
  bindRefsAt
    { c with
      data := listInsert c.data i d,
      subscriptions := listInsert c.subscriptions i (.obj .nil),
      references := listInsert c.references i .nil } i

/-- Subscription.#removeItem: unbind the children recorded for the index
(a missing slot throws, as iterating undefined does), clear the slot,
then remove the index from the mirrored list and both parallel
structures. -/
def removeItem (c : CollSub) (i : Nat) :
    Except Unit (CollSub × List SubEvent) :=
  match c.references.get? i with
  | none => .error ()
  | some refsI => do
      let subsI := (c.subscriptions.get? i).getD .undef
      let tr ← unbindChildrenF (jvSize subsI + jfSize refsI) [natToStr i]
        subsI refsI
      .ok ({ c with
        data := listRemove c.data i,
        subscriptions := listRemove (c.subscriptions.set i (.obj .nil)) i,
        references := listRemove (c.references.set i .nil) i }, tr)

/-- One reported change of a collection snapshot. -/
inductive DiffOp where
  | added (newIndex : Nat) (d : JValue) : DiffOp
  | modified (oldIndex newIndex : Nat) (d : JValue) : DiffOp
  | removed (oldIndex : Nat) : DiffOp
deriving DecidableEq, Repr

/-- Dispatch of one diff operation in Subscription.#bindCollection:
added inserts and binds, modified removes then adds, removed removes. -/
def applyDiff (c : CollSub) : DiffOp → Except Unit (CollSub × List SubEvent)
  | .added i d => addItem c i d
  | .modified oi ni d => do
      let r1 ← removeItem c oi
      let r2 ← addItem r1.1 ni d
      .ok (r2.1, r1.2 ++ r2.2)
  | .removed oi => removeItem c oi

/-- The docChanges loop: apply every diff operation in reported order. -/
def applyDiffs (c : CollSub) : List DiffOp → Except Unit (CollSub × List SubEvent)
  | [] => .ok (c, [])
  | op :: rest => do
      let r1 ← applyDiff c op
      let r2 ← applyDiffs r1.1 rest
      .ok (r2.1, r1.2 ++ r2.2)

/-- Snapshot handler of Subscription.#bindCollection: apply the batch of
diff operations in order, then write the whole mirrored list to the
binding target once. -/
def processBatch (c : CollSub) (ops : List DiffOp) :
    Except Unit (CollSub × List SubEvent) := do
  let r ← applyDiffs c ops
  .ok (r.1, r.2 ++ [.writeTarget (.arr (JItems.ofList r.1.data))])

/-- The reset argument of the facade unbind: either a plain JS value or a
callable. -/
inductive ResetPolicy where
  | val (v : JValue) : ResetPolicy
  | fn (f : Unit → JValue) : ResetPolicy

/-- Registry lookup by key. -/
def lookupReg : List (String × JValue) → String → Option JValue
  | [], _ => none
  | (k, v) :: rest, key => if k = key then some v else lookupReg rest key

/-- Registry entry deletion by key. -/
def removeKey : List (String × JValue) → String → List (String × JValue)
  | [], _ => []
  | (k, v) :: rest, key =>
      if k = key then rest else (k, v) :: removeKey rest key

/-- unbind of the facade: unbind the registered subscription for the key
if present, delete the registry entry, and unless the reset argument is
exactly the boolean false, set the state slot to the result of calling
the reset argument when it is callable and to null otherwise. -/
def facadeUnbind (registry : List (String × JValue)) (state : JFields)
    (key : String) (reset : ResetPolicy) :
    Except Unit (List (String × JValue) × JFields × List SubEvent) := do
  let tr ← match lookupReg registry key with
    | some s => do
        let r ← unbindNode [key] s
        pure r.2
    | none => pure []
  let registry2 := removeKey registry key
  let state2 :=
    match reset with
    | .val (.bool false) => state
    | .fn f => setField state key (f ())
    | _ => setField state key .null
  .ok (registry2, state2, tr)

/-- Does the field list own the key. -/
def hasKeyF : JFields → String → Bool
  | .nil, _ => false
  | .cons k _ rest, key => k = key || hasKeyF rest key

mutual

/-- JS objects cannot carry duplicate keys; this predicate states that a
modelled value respects that, at every object level the scanner can
reach. -/
def nodupKeys : JValue → Bool
  | .obj fs => nodupF fs
  | .arr xs => nodupI xs
  | .ref _ fs => nodupF fs
  | _ => true

/-- Key uniqueness of a field list, recursively. -/
def nodupF : JFields → Bool
  | .nil => true
  | .cons k v rest => !hasKeyF rest k && nodupKeys v && nodupF rest

/-- Key uniqueness through an item list. -/
def nodupI : JItems → Bool
  | .nil => true
  | .cons v rest => nodupKeys v && nodupI rest

end

/-- A key the path notation can address: nonempty, without a dot and
without an opening bracket. -/
def goodKey (k : String) : Bool :=
  !k.toList.isEmpty && !k.toList.contains '.' && !k.toList.contains '['

mutual

/-- Every object key reachable by the scanner is addressable. -/
def goodKeys : JValue → Bool
  | .obj fs => goodKeysF fs
  | .arr xs => goodKeysI xs
  | .ref _ fs => goodKeysF fs
  | _ => true

/-- Addressable keys of a field list, recursively. -/
def goodKeysF : JFields → Bool
  | .nil => true
  | .cons k v rest => goodKey k && goodKeys v && goodKeysF rest

/-- Addressable keys through an item list. -/
def goodKeysI : JItems → Bool
  | .nil => true
  | .cons v rest => goodKeys v && goodKeysI rest

end

/-- The walkGet segment a structural step traverses. -/
def stepStr : PStep → String
  | .fld k => k
  | .idx i => natToStr i

/-- All property steps of an address carry addressable keys. -/
def validAddr (a : List PStep) : Bool :=
  a.all (fun s =>
    match s with
    | .fld k => goodKey k
    | .idx _ => true)

/-- The characters an address contributes after a nonempty rendered
prefix: a dot and the key for a property, a bracketed index for a
position. -/
def tailChars : List PStep → List Char
  | [] => []
  | .fld k :: rest => '.' :: (k.toList ++ tailChars rest)
  | .idx i :: rest => '[' :: (natToStrChars i ++ ']' :: tailChars rest)

/-- The characters of the segments an address denotes, each preceded by a
dot, as the bracket conversion of walkGet leaves them. -/
def dotChars : List PStep → List Char
  | [] => []
  | st :: rest => '.' :: ((stepStr st).toList ++ dotChars rest)

/-- Is the first address an initial run of the second. -/
def stepsLe : List PStep → List PStep → Bool
  | [], _ => true
  | _ :: _, [] => false
  | s :: a, t :: b => s = t && stepsLe a b

/-- Neither address an initial run of the other: the entries sit on
separate branches. -/
def disjointAddr (a b : List PStep) : Bool := !stepsLe a b && !stepsLe b a

/-- One segment of the structural-path grammar of the specification: an
object key, optionally with one bracketed sequence position. -/
inductive PathSeg where
  | key (k : String) : PathSeg
  | keyIdx (k : String) (i : Nat) : PathSeg
deriving Repr, DecidableEq

/-- The key of a path segment. -/
def segKey : PathSeg → String
  | .key k => k
  | .keyIdx k _ => k

/-- Rendered text of one path segment. -/
def renderSeg : PathSeg → String
  | .key k => k
  | .keyIdx k i => k ++ "[" ++ natToStr i ++ "]"

/-- The structural steps a path segment denotes. -/
def toSteps : PathSeg → List PStep
  | .key k => [.fld k]
  | .keyIdx k i => [.fld k, .idx i]

/-- The structural steps of a whole path. -/
def flatSteps (segs : List PathSeg) : List PStep :=
  (segs.map toSteps).join

/-- Rendered text of a structural path, dot between segments, brackets
around positions. -/
def renderPath (segs : List PathSeg) : String :=
  renderFrom "" (flatSteps segs)

/-- A well-formed structural path: nonempty, with addressable keys. -/
def wfPath (segs : List PathSeg) : Prop :=
  segs ≠ [] ∧ ∀ s ∈ segs, goodKey (segKey s) = true

/-- A chain document of nested references: n wrapper objects whose next
field ends at the given value. -/
def Wrap : Nat → JValue → JValue
  | 0, w => w
  | n + 1, w => .obj (.cons "next" (Wrap n w) .nil)

/-- The fetch environment of the chain scenario: the target of reference
k is a document holding the next reference of the chain. -/
def chainFetch : JValue → Except Unit JValue
  | .ref k _ => .ok (Wrap 1 (.ref (k + 1) .nil))
  | _ => .error ()

/-- The bookkeeping path the scanner builds along the chain. -/
def chainPath (cur : String) : Nat → String
  | 0 => cur
  | j + 1 => chainPath (joinProp cur "next") j

/-! ## Claim C9: the walkSet return value -/

/-- Every single-segment walkSetSegs call that succeeds returns the
container it wrote into, which at one segment is the root itself. -/
theorem walkSetSegs_single_ret (o : JValue) (seg : String) (v : JValue)
    (r : JValue × JValue) (h : walkSetSegs o [seg] v = .ok r) : r.2 = r.1 := by
  simp only [walkSetSegs, bind, Except.bind] at h
  cases hw : walkSetLast o seg v with
  | error e => rw [hw] at h; nomatch h
  | ok o2 => rw [hw] at h; cases h; rfl

/-- C9.  The claim says walkSet returns the root object itself.  On the
root (empty object) with path a.b and value 1 the source returns the
freshly created inner container holding b, which is neither the updated
root nor the original root: the reduce hands back the container of the
final segment. -/
theorem fire7_C9_counterexample :
    walkSet (.obj .nil) "a.b" (.num 1) =
      .ok (.obj (.cons "a" (.obj (.cons "b" (.num 1) .nil)) .nil),
           .obj (.cons "b" (.num 1) .nil)) ∧
    (JValue.obj (.cons "b" (.num 1) .nil) ≠
      .obj (.cons "a" (.obj (.cons "b" (.num 1) .nil)) .nil)) ∧
    (JValue.obj (.cons "b" (.num 1) .nil) ≠ .obj .nil) := by
  refine ⟨by decide, by decide, by decide⟩

/-- C9 (amended).  walkSet mutates the root in place; its return value is
the container into which the final path segment was written, which is the
(updated) root exactly when the path consists of a single segment. -/
theorem fire7_C9_amended (root : JValue) (path : String) (value : JValue)
    (root2 ret : JValue)
    (hone : (splitDotStr path).length = 1)
    (h : walkSet root path value = .ok (root2, ret)) : ret = root2 := by
  unfold walkSet at h
  obtain ⟨s, hs⟩ : ∃ s, splitDotStr path = [s] := by
    cases hp : splitDotStr path with
    | nil => rw [hp] at hone; simp at hone
    | cons a l =>
        cases l with
        | nil => exact ⟨a, rfl⟩
        | cons b l2 => rw [hp] at hone; simp at hone
  rw [hs] at h
  exact walkSetSegs_single_ret root s value (root2, ret) h

/-- Witness for the amended C9 at the single-segment path a on an empty
root. -/
theorem fire7_C9_amended_witness :
    (JValue.obj (.cons "a" (.num 7) .nil)) = .obj (.cons "a" (.num 7) .nil) :=
  fire7_C9_amended (.obj .nil) "a" (.num 7) (.obj (.cons "a" (.num 7) .nil))
    (.obj (.cons "a" (.num 7) .nil)) (by decide) (by decide)

/-! ## Claim C6: the facade unbind and its reset policy -/

/-- C6.  Facade unbind looks up and unbinds the registered subscription
for the key when present, deletes the registry entry, and applies the
reset policy to the state slot: boolean false leaves it untouched, a
callable stores its result, anything else stores null. -/
theorem fire7_C6_facade_unbind (registry : List (String × JValue))
    (state : JFields) (key : String) (reset : ResetPolicy)
    (reg2 : List (String × JValue)) (st2 : JFields) (tr : List SubEvent)
    (h : facadeUnbind registry state key reset = .ok (reg2, st2, tr)) :
    reg2 = removeKey registry key ∧
    (reset = .val (.bool false) → st2 = state) ∧
    (∀ f, reset = .fn f → st2 = setField state key (f ())) ∧
    (∀ v, reset = .val v → v ≠ .bool false → st2 = setField state key .null) ∧
    (lookupReg registry key = none → tr = []) ∧
    (∀ s, lookupReg registry key = some s →
      ∃ s2, unbindNode [key] s = .ok (s2, tr)) := by
  unfold facadeUnbind at h
  cases hl : lookupReg registry key with
  | none =>
      rw [hl] at h
      simp only [bind, Except.bind, pure, Except.pure] at h
      cases h
      refine ⟨rfl, ?_, ?_, ?_, fun _ => rfl, ?_⟩
      · intro hr; subst hr; rfl
      · intro f hr; subst hr; rfl
      · intro v hr hv; subst hr
        cases v
        case bool b =>
          cases b with
          | false => exact absurd rfl hv
          | true => rfl
        all_goals rfl
      · intro s hs; simp at hs
  | some s =>
      rw [hl] at h
      simp only [bind, Except.bind, pure, Except.pure] at h
      cases hu : unbindNode [key] s with
      | error e => rw [hu] at h; nomatch h
      | ok r =>
          rw [hu] at h
          simp only [] at h
          cases h
          refine ⟨rfl, ?_, ?_, ?_, ?_, ?_⟩
          · intro hr; subst hr; rfl
          · intro f hr; subst hr; rfl
          · intro v hr hv; subst hr
            cases v
            case bool b =>
              cases b with
              | false => exact absurd rfl hv
              | true => rfl
            all_goals rfl
          · intro habs; simp at habs
          · intro s3 hs3
            cases hs3
            exact ⟨r.1, by simp [hu]⟩

/-- Witness for C6: a registry holding one bound subscription under key k
and a default reset, which stores null into the state slot. -/
theorem fire7_C6_facade_unbind_witness :
    (JFields.cons "k" .null .nil : JFields) =
      setField (.cons "k" (.num 3) .nil) "k" .null := by
  have h := fire7_C6_facade_unbind
    [("k", .subleaf 0 true .null .nil (.obj .nil))]
    (.cons "k" (.num 3) .nil) "k" (.val .undef)
    [] (.cons "k" .null .nil) [.release ["k"]] (by decide)
  exact h.2.2.2.1 .undef rfl (by decide)

/-! ## Claim C5: fetch failure handling of the one-time resolver -/

/-- C5 counterexample.  A document with one reference whose fetch fails:
the scan finds the reference, the pass fetch fails, and yet getOnce does
not fail: it resolves with the document as fetched, the reference left in
place.  The failure never reaches the caller because fillRefs is started
without being awaited and its rejection is unhandled. -/
theorem fire7_C5_counterexample :
    extractRefs (wrapData (.obj (.cons "next" (.ref 1 .nil) .nil)))
      "data" [] ≠ [] ∧
    refFetchAll (fun _ => .error ())
      (extractRefs (wrapData (.obj (.cons "next" (.ref 1 .nil) .nil)))
        "data" []) = .error () ∧
    getModelSingle (.ok (some (.obj (.cons "next" (.ref 1 .nil) .nil))))
      (fun _ => .error ()) 2 =
      .ok (.obj (.cons "next" (.ref 1 .nil) .nil),
           .obj (.cons "next" (.ref 1 .nil) .nil)) ∧
    getModelSingle (.ok (some (.obj (.cons "next" (.ref 1 .nil) .nil))))
      (fun _ => .error ()) 2 ≠ .error () := by
  refine ⟨by decide, by decide, by decide, by decide⟩

/-- C5 (amended).  A failed reference fetch fails the whole pass: nothing
of that pass is spliced and the recursion stops, so the object keeps
exactly the splices of the earlier passes; the getOnce caller is not
notified: the call rejects exactly when the document fetch itself
rejects, and resolves for every outcome of the reference fetches. -/
theorem fire7_C5_amended :
    (∀ (fetch : JValue → Except Unit JValue) (obj : JValue) (d : Nat)
      (e : Unit),
      refFetchAll fetch (extractRefs (wrapData obj) "data" []) = .error e →
      fillRefsModel fetch obj (d + 1) = obj) ∧
    (∀ (refFetch : JValue → Except Unit JValue) (d : Nat) (e : Unit),
      getModelSingle (.error e) refFetch d = .error e) ∧
    (∀ (dd : Option JValue) (refFetch : JValue → Except Unit JValue) (d : Nat),
      ∃ pr, getModelSingle (.ok dd) refFetch d = .ok pr) := by
  refine ⟨?_, ?_, ?_⟩
  · intro fetch obj d e h
    unfold fillRefsModel
    simp only []
    rw [h]
  · intro refFetch d e
    rfl
  · intro dd refFetch d
    cases dd with
    | none => exact ⟨(.null, .null), rfl⟩
    | some v =>
        unfold getModelSingle
        simp only [bind, Except.bind, pure, Except.pure]
        cases ht : truthy v with
        | true => exact ⟨(v, fillRefsModel refFetch v d), rfl⟩
        | false => exact ⟨(v, v), rfl⟩

/-- Witness for the amended C5: a failing reference fetch leaves the
document untouched through three budgeted passes. -/
theorem fire7_C5_amended_witness :
    fillRefsModel (fun _ => .error ())
      (.obj (.cons "next" (.ref 1 .nil) .nil)) 3 =
      .obj (.cons "next" (.ref 1 .nil) .nil) :=
  fire7_C5_amended.1 (fun _ => .error ())
    (.obj (.cons "next" (.ref 1 .nil) .nil)) 2 () (by decide)

/-! ## Shared lemmas about the teardown and binding traces -/

/-- Inversion of a successful Except bind. -/
theorem bind_eq_ok {e a b : Type} {x : Except e a} {f : a → Except e b}
    {r : b} (h : x >>= f = .ok r) : ∃ v, x = .ok v ∧ f v = .ok r := by
  cases x with
  | error err => simp [bind, Except.bind] at h
  | ok v => exact ⟨v, rfl, h⟩


/-- Structural size of a value is positive. -/
theorem jvSize_pos (v : JValue) : 1 ≤ jvSize v := by
  cases v <;> simp [jvSize] <;> omega

/-- The trace shape of every successful unbind, together with the trace
shape of every successful child teardown loop: a node unbinds its
children first, each child contributing its own nested releases before
its own handle release, and releases its own handle last; every release
recorded below a context is strictly deeper than that context. -/
theorem unbind_trace_shape (fuel : Nat) :
    (∀ (ctx : List String) (s s2 : JValue) (tr : List SubEvent),
      unbindNodeF fuel ctx s = .ok (s2, tr) →
      ∃ (d : Nat) (hU : Bool) (data : JValue) (refs : JFields)
        (subsVal : JValue) (inner : List SubEvent),
        s = .subleaf d hU data refs subsVal ∧
        s2 = .subleaf d hU data .nil (.obj .nil) ∧
        tr = inner ++ (if hU then [.release ctx] else []) ∧
        (∀ e ∈ inner, ∃ c, e = .release c ∧ ctx.length < c.length)) ∧
    (∀ (ctx : List String) (subsVal : JValue) (refs : JFields)
      (tr : List SubEvent),
      unbindChildrenF fuel ctx subsVal refs = .ok tr →
      ∃ parts, tr = parts.join ∧
        List.Forall₂ (fun (r : String × JValue) (part : List SubEvent) =>
          ∃ (hU : Bool) (inner : List SubEvent),
            part = inner ++ (if hU then [.release (ctx ++ [r.1])] else []) ∧
            (∀ e ∈ inner, ∃ c, e = .release c ∧
              (ctx ++ [r.1]).length < c.length))
          refs.toList parts ∧
        (∀ e ∈ tr, ∃ c, e = .release c ∧ ctx.length < c.length)) := by
  induction fuel with
  | zero =>
      constructor
      · intro ctx s s2 tr h; nomatch h
      · intro ctx subsVal refs tr h
        cases refs with
        | nil =>
            cases h
            exact ⟨[], rfl, List.Forall₂.nil, by simp⟩
        | cons p v rest => nomatch h
  | succ f ih =>
      obtain ⟨ihNode, ihCh⟩ := ih
      constructor
      · intro ctx s s2 tr h
        cases s
        case subleaf d hU data refs subsVal =>
            simp only [unbindNodeF, bind, Except.bind] at h
            cases hc : unbindChildrenF f ctx subsVal refs with
            | error e => rw [hc] at h; nomatch h
            | ok trc =>
                rw [hc] at h
                cases h
                obtain ⟨parts, hjoin, hfa, hall⟩ := ihCh ctx subsVal refs trc hc
                exact ⟨d, hU, data, refs, subsVal, trc, rfl, rfl, rfl, hall⟩
        all_goals exact absurd h (by simp [unbindNodeF])
      · intro ctx subsVal refs tr h
        cases refs with
        | nil =>
            cases h
            exact ⟨[], rfl, List.Forall₂.nil, by simp⟩
        | cons p v rest =>
            simp only [unbindChildrenF, bind, Except.bind] at h
            cases hn : unbindNodeF f (ctx ++ [p]) (walkGet subsVal p) with
            | error e => rw [hn] at h; nomatch h
            | ok rn =>
                rw [hn] at h
                cases hr : unbindChildrenF f ctx subsVal rest with
                | error e => rw [hr] at h; nomatch h
                | ok tr2 =>
                    rw [hr] at h
                    cases h
                    obtain ⟨d2, hU2, data2, refs2, subs2, inner2, _, _, htr, hin⟩ :=
                      ihNode (ctx ++ [p]) (walkGet subsVal p) rn.1 rn.2
                        (by rw [hn])
                    obtain ⟨parts, hjoin, hfa, hall⟩ :=
                      ihCh ctx subsVal rest tr2 hr
                    refine ⟨rn.2 :: parts, by simp [hjoin], ?_, ?_⟩
                    · exact List.Forall₂.cons ⟨hU2, inner2, htr, hin⟩ hfa
                    · intro e he
                      rcases List.mem_append.mp he with h1 | h2
                      · rw [htr] at h1
                        rcases List.mem_append.mp h1 with h3 | h4
                        · obtain ⟨c, hc1, hc2⟩ := hin e h3
                          refine ⟨c, hc1, ?_⟩
                          simp only [List.length_append, List.length_cons,
                            List.length_nil] at hc2
                          omega
                        · cases hU2 with
                          | true =>
                              simp only [if_true] at h4
                              rcases List.mem_singleton.mp h4 with rfl
                              exact ⟨ctx ++ [p], rfl, by simp⟩
                          | false => simp at h4
                      · exact hall e h2

/-- Unbinding an already-unbound node (empty reference list, fresh
bookkeeping object) succeeds: it only re-releases a still-open handle and
releases nothing when the handle was never established. -/
theorem unbindNode_reset (ctx : List String) (d : Nat) (hU : Bool)
    (data : JValue) :
    unbindNode ctx (.subleaf d hU data .nil (.obj .nil)) =
      .ok (.subleaf d hU data .nil (.obj .nil),
        if hU then [.release ctx] else []) := by
  unfold unbindNode
  obtain ⟨k, hk⟩ :
      ∃ k, jvSize (.subleaf d hU data .nil (.obj .nil)) = k + 1 := by
    have h1 := jvSize_pos (.subleaf d hU data .nil (.obj .nil))
    exact ⟨jvSize (.subleaf d hU data .nil (.obj .nil)) - 1, by omega⟩
  rw [hk]
  simp [unbindNodeF, unbindChildrenF, bind, Except.bind]

/-! ## Claim C8: unbind order and safety -/

/-- C8.  A successful Subscription.unbind first unbinds all child
subscriptions (every release recorded before the own handle release is
the release of a strictly deeper node: children before parents,
recursively), then releases the remote handle of the node itself, and
only when one is active; a node whose handle was never established
releases nothing; calling unbind again on the resulting node does not
throw, it succeeds and at most re-releases the still-open handle. -/
theorem fire7_C8_unbind (ctx : List String) (s s2 : JValue)
    (tr : List SubEvent) (h : unbindNode ctx s = .ok (s2, tr)) :
    ∃ (d : Nat) (hU : Bool) (data : JValue) (inner : List SubEvent),
      tr = inner ++ (if hU then [.release ctx] else []) ∧
      (∀ e ∈ inner, ∃ c, e = .release c ∧ ctx.length < c.length) ∧
      s2 = .subleaf d hU data .nil (.obj .nil) ∧
      unbindNode ctx s2 = .ok (s2, if hU then [.release ctx] else []) ∧
      (hU = false → tr = inner) := by
  obtain ⟨d, hU, data, refs, subsVal, inner, hs, hs2, htr, hin⟩ :=
    (unbind_trace_shape (jvSize s)).1 ctx s s2 tr h
  refine ⟨d, hU, data, inner, htr, hin, hs2, ?_, ?_⟩
  · rw [hs2]; exact unbindNode_reset ctx d hU data
  · intro hfalse
    rw [htr, hfalse]
    simp

/-- Witness for C8 on a two-level tree with an active handle. -/
theorem fire7_C8_unbind_witness :
    ∃ (d : Nat) (hU : Bool) (data : JValue) (inner : List SubEvent),
      ([SubEvent.release ["x"], SubEvent.release []] =
        inner ++ (if hU then [SubEvent.release []] else [])) ∧
      (∀ e ∈ inner, ∃ c, e = SubEvent.release c ∧
        (List.length ([] : List String)) < c.length) ∧
      (JValue.subleaf 2 true .null .nil (.obj .nil) =
        .subleaf d hU .null .nil (.obj .nil)) ∧
      unbindNode [] (.subleaf 2 true .null .nil (.obj .nil)) =
        .ok (.subleaf 2 true .null .nil (.obj .nil),
          if hU then [SubEvent.release []] else []) ∧
      (hU = false →
        [SubEvent.release ["x"], SubEvent.release []] = inner) := by
  have h := fire7_C8_unbind [] (.subleaf 2 true .null
    (.cons "x" (.ref 7 .nil) .nil)
    (.obj (.cons "x" (.subleaf 1 true .undef .nil (.obj .nil)) .nil)))
    (.subleaf 2 true .null .nil (.obj .nil))
    [SubEvent.release ["x"], SubEvent.release []] (by decide)
  obtain ⟨d, hU, data, inner, h1, h2, h3, h4, h5⟩ := h
  cases h3
  exact ⟨2, true, .null, inner, h1, h2, rfl, h4, h5⟩

/-- The binding loop emits exactly one bindChild event per scanned
reference entry, in scan order. -/
theorem bindRefsLoop_trace (ctx : List String) (depth : Nat) :
    ∀ (refs : List RefEntry) (m : JValue) (out : JValue × List SubEvent),
      bindRefsLoop ctx depth m refs = .ok out →
      out.2 = refs.map (fun r => SubEvent.bindChild (ctx ++ [r.1])) := by
  intro refs
  induction refs with
  | nil => intro m out h; cases h; rfl
  | cons r rest ih =>
      intro m out h
      obtain ⟨p, rv⟩ := r
      simp only [bindRefsLoop] at h
      obtain ⟨m2, hw, h⟩ := bind_eq_ok h
      obtain ⟨out2, hl, h⟩ := bind_eq_ok h
      cases h
      simp only [List.map_cons, List.cons.injEq]
      exact ⟨trivial, ih m2.1 out2 hl⟩

/-- Events of a successful child teardown are releases only. -/
theorem unbindChildrenF_releases (fuel : Nat) (ctx : List String)
    (subsVal : JValue) (refs : JFields) (tr : List SubEvent)
    (h : unbindChildrenF fuel ctx subsVal refs = .ok tr) :
    ∀ e ∈ tr, ∃ c, e = SubEvent.release c := by
  obtain ⟨parts, hjoin, hfa, hall⟩ := (unbind_trace_shape fuel).2 ctx subsVal refs tr h
  intro e he
  obtain ⟨c, hc, _⟩ := hall e he
  exact ⟨c, hc⟩

/-- One collection diff operation never writes the target: its events are
releases and child bindings only. -/
theorem applyDiff_no_writeTarget (c : CollSub) (op : DiffOp)
    (out : CollSub × List SubEvent) (h : applyDiff c op = .ok out) :
    ∀ v, SubEvent.writeTarget v ∉ out.2 := by
  have hbind : ∀ (c1 : CollSub) (i : Nat) (d : JValue)
      (o : CollSub × List SubEvent), bindRefsAt c1 i = .ok o →
      ∀ v, SubEvent.writeTarget v ∉ o.2 := by
    intro c1 i d o hb v hmem
    unfold bindRefsAt at hb
    by_cases hd : 0 < c1.maxRefDepth
    · rw [if_pos hd] at hb
      obtain ⟨r, hl, hb⟩ := bind_eq_ok hb
      cases hb
      have := bindRefsLoop_trace [natToStr i] c1.maxRefDepth _ _ _ hl
      simp only [this, List.mem_map] at hmem
      obtain ⟨x, _, hx⟩ := hmem
      nomatch hx
    · rw [if_neg hd] at hb
      cases hb
      simp at hmem
  have hadd : ∀ (c1 : CollSub) (i : Nat) (d : JValue)
      (o : CollSub × List SubEvent), addItem c1 i d = .ok o →
      ∀ v, SubEvent.writeTarget v ∉ o.2 := by
    intro c1 i d o ha
    exact hbind _ i d o ha
  have hrem : ∀ (c1 : CollSub) (i : Nat)
      (o : CollSub × List SubEvent), removeItem c1 i = .ok o →
      ∀ v, SubEvent.writeTarget v ∉ o.2 := by
    intro c1 i o hr v hmem
    unfold removeItem at hr
    cases hg : c1.references.get? i with
    | none => rw [hg] at hr; nomatch hr
    | some refsI =>
        rw [hg] at hr
        obtain ⟨tr, hu, hr⟩ := bind_eq_ok hr
        cases hr
        obtain ⟨c2, hc2⟩ := unbindChildrenF_releases _ _ _ _ _ hu _ hmem
        nomatch hc2
  cases op with
  | added i d => exact hadd c i d out h
  | modified oi ni d =>
      simp only [applyDiff] at h
      obtain ⟨r1, h1, h⟩ := bind_eq_ok h
      obtain ⟨r2, h2, h⟩ := bind_eq_ok h
      cases h
      intro v hmem
      rcases List.mem_append.mp hmem with hm | hm
      · exact hrem c oi r1 h1 v hm
      · exact hadd r1.1 ni d r2 h2 v hm
  | removed oi => exact hrem c oi out h

/-- Inserting with JS splice clamping always adds one element. -/
theorem listInsert_length {α : Type} (l : List α) (i : Nat) (a : α) :
    (listInsert l i a).length = l.length + 1 := by
  simp [listInsert]
  omega

/-- Removing with JS splice semantics shortens equal-length lists
equally. -/
theorem listRemove_length {α : Type} (l : List α) (i : Nat) :
    (listRemove l i).length = min i l.length + (l.length - (i + 1)) := by
  simp [listRemove]

/-- bindRefsAt only rewrites the bookkeeping slot of the given index: the
mirrored list, the depth budget and all three lengths are unchanged. -/
theorem bindRefsAt_fields (c : CollSub) (i : Nat)
    (out : CollSub × List SubEvent) (h : bindRefsAt c i = .ok out) :
    out.1.data = c.data ∧ out.1.maxRefDepth = c.maxRefDepth ∧
    out.1.subscriptions.length = c.subscriptions.length ∧
    out.1.references.length = c.references.length := by
  unfold bindRefsAt at h
  by_cases hd : 0 < c.maxRefDepth
  · rw [if_pos hd] at h
    obtain ⟨r, hl, h⟩ := bind_eq_ok h
    cases h
    refine ⟨rfl, rfl, ?_, ?_⟩ <;> simp
  · rw [if_neg hd] at h
    cases h
    exact ⟨rfl, rfl, rfl, rfl⟩

/-- A whole batch of diff operations never writes the target. -/
theorem applyDiffs_no_writeTarget :
    ∀ (ops : List DiffOp) (c : CollSub) (r : CollSub × List SubEvent),
      applyDiffs c ops = .ok r → ∀ v, SubEvent.writeTarget v ∉ r.2 := by
  intro ops
  induction ops with
  | nil => intro c r h v hm; cases h; simp at hm
  | cons op rest ih =>
      intro c r h v hm
      simp only [applyDiffs] at h
      obtain ⟨r1, h1, h⟩ := bind_eq_ok h
      obtain ⟨r2, h2, h⟩ := bind_eq_ok h
      cases h
      rcases List.mem_append.mp hm with hmm | hmm
      · exact applyDiff_no_writeTarget c op r1 h1 v hmm
      · exact ih r1.1 r2 h2 v hmm

/-! ## Claim C3: collection diff application -/

/-- C3.  Each diff operation of a batch is applied in reported order:
added inserts the document and index-aligned placeholders before binding
the children of the item; removed unbinds the children of the index first
(all its events are releases) and then removes the index from all three
parallel structures; modified is exactly removed followed by added; and
after the whole batch the full mirrored list is written to the target
exactly once, as the final event.  In particular the batches
added(0,A), added(1,B) and then removed(0) leave the mirrored list at
exactly B. -/
theorem fire7_C3_collection_diffs :
    (∀ (c : CollSub) (oi ni : Nat) (d : JValue),
      applyDiff c (.modified oi ni d) = do
        let r1 ← applyDiff c (.removed oi)
        let r2 ← applyDiff r1.1 (.added ni d)
        .ok (r2.1, r1.2 ++ r2.2)) ∧
    (∀ (c : CollSub) (ops : List DiffOp) (c2 : CollSub)
      (evts : List SubEvent), processBatch c ops = .ok (c2, evts) →
      ∃ inner, evts = inner ++ [.writeTarget (.arr (JItems.ofList c2.data))] ∧
        ∀ v, SubEvent.writeTarget v ∉ inner) ∧
    (∀ (c : CollSub) (i : Nat) (d : JValue) (c2 : CollSub)
      (evts : List SubEvent), applyDiff c (.added i d) = .ok (c2, evts) →
      c2.data = listInsert c.data i d ∧
      c2.maxRefDepth = c.maxRefDepth ∧
      c2.subscriptions.length = c.subscriptions.length + 1 ∧
      c2.references.length = c.references.length + 1) ∧
    (∀ (c : CollSub) (i : Nat) (c2 : CollSub) (evts : List SubEvent),
      applyDiff c (.removed i) = .ok (c2, evts) →
      c2.data = listRemove c.data i ∧
      c2.maxRefDepth = c.maxRefDepth ∧
      c2.subscriptions.length =
        min i c.subscriptions.length + (c.subscriptions.length - (i + 1)) ∧
      c2.references.length =
        min i c.references.length + (c.references.length - (i + 1)) ∧
      (∀ e ∈ evts, ∃ ctx, e = SubEvent.release ctx)) ∧
    ((processBatch ⟨[], [], [], 2⟩
        [.added 0 (.obj (.cons "id" (.str "a") .nil)),
         .added 1 (.obj (.cons "id" (.str "b") .nil))]).bind
      (fun r => processBatch r.1 [.removed 0]) =
      .ok (⟨[.obj (.cons "id" (.str "b") .nil)], [.obj .nil], [.nil], 2⟩,
        [.writeTarget (.arr (.cons (.obj (.cons "id" (.str "b") .nil))
          .nil))])) := by
  refine ⟨?_, ?_, ?_, ?_, by decide⟩
  · intro c oi ni d
    rfl
  · intro c ops c2 evts h
    unfold processBatch at h
    obtain ⟨r, hops, h⟩ := bind_eq_ok h
    cases h
    refine ⟨r.2, rfl, ?_⟩
    intro v hmem
    exact applyDiffs_no_writeTarget ops c r hops v hmem
  · intro c i d c2 evts h
    simp only [applyDiff, addItem] at h
    have hf := bindRefsAt_fields _ _ _ h
    simp only [] at hf
    obtain ⟨h1, h2, h3, h4⟩ := hf
    refine ⟨h1, h2, ?_, ?_⟩
    · rw [h3]; exact listInsert_length c.subscriptions i (.obj .nil)
    · rw [h4]; exact listInsert_length c.references i .nil
  · intro c i c2 evts h
    simp only [applyDiff, removeItem] at h
    cases hg : c.references.get? i with
    | none => rw [hg] at h; nomatch h
    | some refsI =>
        rw [hg] at h
        obtain ⟨tr, hu, h⟩ := bind_eq_ok h
        cases h
        refine ⟨rfl, rfl, ?_, ?_, ?_⟩
        · rw [listRemove_length]; simp
        · rw [listRemove_length]; simp
        · intro e he
          exact unbindChildrenF_releases _ _ _ _ _ hu e he

/-- Witness for C3: adding the first document at index 0 to an empty
collection state mirrors it at index 0. -/
theorem fire7_C3_collection_diffs_witness :
    (CollSub.mk [.obj (.cons "id" (.str "a") .nil)] [.obj .nil] [.nil] 2).data =
      listInsert ([] : List JValue) 0 (.obj (.cons "id" (.str "a") .nil)) :=
  (fire7_C3_collection_diffs.2.2.1 ⟨[], [], [], 2⟩ 0
    (.obj (.cons "id" (.str "a") .nil))
    ⟨[.obj (.cons "id" (.str "a") .nil)], [.obj .nil], [.nil], 2⟩
    [] (by decide)).1

/-- In a snapshot trace, every release position precedes every bindChild
position: the head events are the data write, the tail event is the
notification, releases fill the first inner block and child bindings the
second. -/
theorem trace_releases_before_binds (x y z : SubEvent)
    (u b : List SubEvent)
    (hx : ∀ c, x ≠ .release c ∧ x ≠ .bindChild c)
    (hy : ∀ c, y ≠ .release c ∧ y ≠ .bindChild c)
    (hz : ∀ c, z ≠ .release c ∧ z ≠ .bindChild c)
    (hu : ∀ e ∈ u, ∃ c, e = .release c)
    (hb : ∀ e ∈ b, ∃ c, e = .bindChild c)
    (i j : Nat) (e1 e2 : SubEvent)
    (h1 : (x :: y :: (u ++ (b ++ [z]))).get? i = some e1)
    (h2 : (x :: y :: (u ++ (b ++ [z]))).get? j = some e2)
    (hr : ∃ c, e1 = .release c) (hbc : ∃ c, e2 = .bindChild c) : i < j := by
  obtain ⟨c1, rfl⟩ := hr
  obtain ⟨c2, rfl⟩ := hbc
  match i, h1 with
  | 0, h1 =>
      simp only [List.get?_cons_zero, Option.some.injEq] at h1
      exact absurd h1 (hx c1).1
  | 1, h1 =>
      simp only [List.get?_cons_succ, List.get?_cons_zero,
        Option.some.injEq] at h1
      exact absurd h1 (hy c1).1
  | (i' + 2), h1 =>
      match j, h2 with
      | 0, h2 =>
          simp only [List.get?_cons_zero, Option.some.injEq] at h2
          exact absurd h2 (hx c2).2
      | 1, h2 =>
          simp only [List.get?_cons_succ, List.get?_cons_zero,
            Option.some.injEq] at h2
          exact absurd h2 (hy c2).2
      | (j' + 2), h2 =>
          simp only [List.get?_cons_succ] at h1 h2
          have hiu : i' < u.length := by
            by_contra hge
            push_neg at hge
            rw [List.get?_append_right hge] at h1
            have hmem := List.get?_mem h1
            rcases List.mem_append.mp hmem with hm | hm
            · obtain ⟨c, hc⟩ := hb _ hm
              nomatch hc
            · rcases List.mem_singleton.mp hm with rfl
              exact absurd rfl (hz c1).1
          have hju : u.length ≤ j' := by
            by_contra hlt
            push_neg at hlt
            rw [List.get?_append hlt] at h2
            have hmem := List.get?_mem h2
            obtain ⟨c, hc⟩ := hu _ hmem
            nomatch hc
          omega

/-! ## Claim C2: the single-document snapshot handler -/

/-- C2.  On every emitted snapshot the node, in this order: sets the
mirrored value to the snapshot data (or null when the document does not
exist), writes it to the target through the path accessor, unbinds all
current child subscriptions (each child contributing the releases of its
own children strictly before the release of its own handle), rebinds one
child subscription per reference discovered in the new value and only
when the depth budget is positive, and finally invokes the change
callback.  Consequently, in the trace of any snapshot processed after a
previous one, every release of a child alive under the previous snapshot
occurs before any binding of the new children. -/
theorem fire7_C2_snapshot (target : JValue) (tprop : String)
    (depth : Nat) (hU : Bool) (data0 : JValue) (refs : JFields)
    (subsVal : JValue) (snap : Option JValue) (t2 s2 : JValue)
    (evts : List SubEvent)
    (h : processSnapshot target tprop (.subleaf depth hU data0 refs subsVal)
      snap = .ok (t2, s2, evts)) :
    ∃ (nd : JValue) (uTr bTr : List SubEvent) (ret subs2 : JValue)
      (refs2 : JFields),
      nd = snapData snap ∧
      s2 = .subleaf depth hU nd refs2 subs2 ∧
      walkSet target tprop nd = .ok (t2, ret) ∧
      evts = .setData nd :: .writeTarget nd :: (uTr ++ (bTr ++ [.notify])) ∧
      (∃ parts, uTr = parts.join ∧
        List.Forall₂ (fun (r : String × JValue) (part : List SubEvent) =>
          ∃ (hUc : Bool) (inner : List SubEvent),
            part = inner ++ (if hUc then [.release [r.1]] else []) ∧
            (∀ e ∈ inner, ∃ c, e = .release c ∧ 1 < c.length))
          refs.toList parts) ∧
      (∀ e ∈ uTr, ∃ c, e = .release c) ∧
      bTr = (if 0 < depth then
        (extractRefs nd "" []).map (fun r => SubEvent.bindChild [r.1])
        else []) ∧
      (∀ i j e1 e2, evts.get? i = some e1 → evts.get? j = some e2 →
        (∃ c, e1 = .release c) → (∃ c, e2 = .bindChild c) → i < j) := by
  simp only [processSnapshot] at h
  obtain ⟨t2p, hw, h⟩ := bind_eq_ok h
  obtain ⟨uTr, hu, h⟩ := bind_eq_ok h
  obtain ⟨r, hbnd, h⟩ := bind_eq_ok h
  cases h
  set nd := snapData snap with hnd
  have hushape := (unbind_trace_shape (jvSize subsVal + jfSize refs)).2
    [] subsVal refs uTr hu
  obtain ⟨parts, hjoin, hfa, hall⟩ := hushape
  have hrel : ∀ e ∈ uTr, ∃ c, e = SubEvent.release c := by
    intro e he
    obtain ⟨c, hc, _⟩ := hall e he
    exact ⟨c, hc⟩
  have hfa2 : List.Forall₂ (fun (rf : String × JValue) (part : List SubEvent) =>
      ∃ (hUc : Bool) (inner : List SubEvent),
        part = inner ++ (if hUc then [.release [rf.1]] else []) ∧
        (∀ e ∈ inner, ∃ c, e = .release c ∧ 1 < c.length))
      refs.toList parts := by
    refine List.Forall₂.imp ?_ hfa
    intro rf part hp
    obtain ⟨hUc, inner, hpeq, hpin⟩ := hp
    refine ⟨hUc, inner, by simpa using hpeq, ?_⟩
    intro e he
    obtain ⟨c, hc1, hc2⟩ := hpin e he
    exact ⟨c, hc1, by simpa using hc2⟩
  have hbTr : r.2.2 = (if 0 < depth then
      (extractRefs nd "" []).map (fun rf => SubEvent.bindChild [rf.1])
      else []) ∧ ∃ subs2 refs2, r = (subs2, refs2, r.2.2) := by
    unfold bindRefsSingle at hbnd
    by_cases hd : 0 < depth
    · rw [if_pos hd] at hbnd
      obtain ⟨rl, hloop, hbnd⟩ := bind_eq_ok hbnd
      cases hbnd
      have := bindRefsLoop_trace [] depth (extractRefs nd "" [])
        (.obj .nil) rl hloop
      simp only [List.nil_append] at this
      exact ⟨by rw [if_pos hd]; exact this, rl.1,
        JFields.ofList (extractRefs nd "" []), rfl⟩
    · rw [if_neg hd] at hbnd
      cases hbnd
      exact ⟨by rw [if_neg hd], .obj .nil, .nil, rfl⟩
  obtain ⟨hbtr, subs2, refs2, hr⟩ := hbTr
  have hbind : ∀ e ∈ r.2.2, ∃ c, e = SubEvent.bindChild c := by
    rw [hbtr]
    intro e he
    by_cases hd : 0 < depth
    · rw [if_pos hd] at he
      obtain ⟨x, _, hx⟩ := List.mem_map.mp he
      exact ⟨[x.1], hx.symm⟩
    · rw [if_neg hd] at he; simp at he
  refine ⟨nd, uTr, r.2.2, t2p.2, r.1, r.2.1, rfl, rfl, ?_,
    by rw [List.append_assoc], ⟨parts, hjoin, hfa2⟩, hrel, hbtr, ?_⟩
  · rw [hw]
  · intro i j e1 e2 h1 h2 hr1 hb2
    rw [List.append_assoc] at h1 h2
    exact trace_releases_before_binds (.setData nd) (.writeTarget nd)
      .notify uTr r.2.2
      (fun c => ⟨nofun, nofun⟩) (fun c => ⟨nofun, nofun⟩)
      (fun c => ⟨nofun, nofun⟩) hrel hbind i j e1 e2 h1 h2 hr1 hb2

/-- Witness for C2: the second snapshot of the two-snapshot scenario.
The node that processed a snapshot with a reference at x receives a new
snapshot with a reference at y: the trace sets the data, writes the
target, releases the x child and only then binds the y child. -/
theorem fire7_C2_snapshot_witness :
    ∃ (nd : JValue) (uTr bTr : List SubEvent) (ret subs2 : JValue)
      (refs2 : JFields),
      nd = snapData (some (.obj (.cons "y" (.ref 8 .nil) .nil))) ∧
      (JValue.subleaf 2 true (.obj (.cons "y" (.ref 8 .nil) .nil))
        (.cons "y" (.ref 8 .nil) .nil)
        (.obj (.cons "y" (.subleaf 1 true .undef .nil (.obj .nil)) .nil)))
        = .subleaf 2 true nd refs2 subs2 ∧
      walkSet (.obj (.cons "k" (.obj (.cons "x" (.ref 7 .nil) .nil)) .nil))
        "k" nd =
        .ok (.obj (.cons "k" (.obj (.cons "y" (.ref 8 .nil) .nil)) .nil),
          ret) ∧
      ([SubEvent.setData (.obj (.cons "y" (.ref 8 .nil) .nil)),
        .writeTarget (.obj (.cons "y" (.ref 8 .nil) .nil)),
        .release ["x"], .bindChild ["y"], .notify] : List SubEvent) =
        .setData nd :: .writeTarget nd :: (uTr ++ (bTr ++ [.notify])) ∧
      (∃ parts, uTr = parts.join ∧
        List.Forall₂ (fun (r : String × JValue) (part : List SubEvent) =>
          ∃ (hUc : Bool) (inner : List SubEvent),
            part = inner ++ (if hUc then [.release [r.1]] else []) ∧
            (∀ e ∈ inner, ∃ c, e = .release c ∧ 1 < c.length))
          (JFields.cons "x" (.ref 7 .nil) .nil).toList parts) ∧
      (∀ e ∈ uTr, ∃ c, e = .release c) ∧
      bTr = (if 0 < 2 then
        (extractRefs nd "" []).map (fun r => SubEvent.bindChild [r.1])
        else []) ∧
      (∀ i j e1 e2,
        ([SubEvent.setData (.obj (.cons "y" (.ref 8 .nil) .nil)),
          .writeTarget (.obj (.cons "y" (.ref 8 .nil) .nil)),
          .release ["x"], .bindChild ["y"], .notify] : List SubEvent).get? i
          = some e1 →
        ([SubEvent.setData (.obj (.cons "y" (.ref 8 .nil) .nil)),
          .writeTarget (.obj (.cons "y" (.ref 8 .nil) .nil)),
          .release ["x"], .bindChild ["y"], .notify] : List SubEvent).get? j
          = some e2 →
        (∃ c, e1 = .release c) → (∃ c, e2 = .bindChild c) → i < j) := by
  have h := fire7_C2_snapshot
    (.obj (.cons "k" (.obj (.cons "x" (.ref 7 .nil) .nil)) .nil)) "k"
    2 true (.obj (.cons "x" (.ref 7 .nil) .nil))
    (.cons "x" (.ref 7 .nil) .nil)
    (.obj (.cons "x" (.subleaf 1 true .undef .nil (.obj .nil)) .nil))
    (some (.obj (.cons "y" (.ref 8 .nil) .nil)))
    (.obj (.cons "k" (.obj (.cons "y" (.ref 8 .nil) .nil)) .nil))
    (.subleaf 2 true (.obj (.cons "y" (.ref 8 .nil) .nil))
      (.cons "y" (.ref 8 .nil) .nil)
      (.obj (.cons "y" (.subleaf 1 true .undef .nil (.obj .nil)) .nil)))
    [SubEvent.setData (.obj (.cons "y" (.ref 8 .nil) .nil)),
     .writeTarget (.obj (.cons "y" (.ref 8 .nil) .nil)),
     .release ["x"], .bindChild ["y"], .notify]
    (by decide)
  obtain ⟨nd, uTr, bTr, ret, subs2, refs2, h1, h2, h3, h4, h5, h6, h7, h8⟩ := h
  exact ⟨nd, uTr, bTr, ret, subs2, refs2, h1, h2.symm ▸ h2, h3, h4, h5, h6,
    h7, h8⟩

/-- Code of the digit character of a value below ten. -/
theorem digitChar_toNat (d : Nat) (h : d < 10) : (digitChar d).toNat = 48 + d := by
  interval_cases d <;> decide

/-- The digit character of a value below ten is a digit character. -/
theorem isDigit_digitChar (d : Nat) (h : d < 10) :
    isDigitChar (digitChar d) = true := by
  interval_cases d <;> decide

/-- The digit character of a value below ten is a word character. -/
theorem isWord_digitChar (d : Nat) (h : d < 10) :
    isWordChar (digitChar d) = true := by
  interval_cases d <;> decide

/-- A digit character is not a dot. -/
theorem digit_ne_dot (c : Char) (h : isDigitChar c = true) : c ≠ '.' := by
  intro he; subst he; exact absurd h (by decide)

/-- A digit character is not an opening bracket. -/
theorem digit_ne_open (c : Char) (h : isDigitChar c = true) : c ≠ '[' := by
  intro he; subst he; exact absurd h (by decide)

/-- A digit character is not a closing bracket. -/
theorem digit_ne_close (c : Char) (h : isDigitChar c = true) : c ≠ ']' := by
  intro he; subst he; exact absurd h (by decide)

/-- Decimal rendering is never empty. -/
theorem ntsc_ne_nil (f n : Nat) : natToStrCharsF f n ≠ [] := by
  cases f with
  | zero => simp [natToStrCharsF]
  | succ f =>
      by_cases h : n < 10 <;> simp [natToStrCharsF, h]

/-- Decimal rendering with adequate fuel yields only digit characters. -/
theorem ntsc_digits : ∀ f n, n ≤ f + 9 → ∀ c ∈ natToStrCharsF f n,
    isDigitChar c = true
  | 0, n, h => by
      intro c hc
      simp [natToStrCharsF] at hc
      subst hc
      exact isDigit_digitChar n (by omega)
  | f + 1, n, h => by
      intro c hc
      by_cases h10 : n < 10
      · simp [natToStrCharsF, h10] at hc
        subst hc
        exact isDigit_digitChar n h10
      · simp [natToStrCharsF, h10] at hc
        rcases hc with hc | hc
        · have hd : n / 10 < n := Nat.div_lt_self (by omega) (by omega)
          exact ntsc_digits f (n / 10) (by omega) c hc
        · subst hc
          exact isDigit_digitChar _ (Nat.mod_lt n (by omega))

/-- Decimal rendering with adequate fuel denotes the rendered number. -/
theorem ntsc_val : ∀ f n, n ≤ f + 9 → digitsToNat (natToStrCharsF f n) = n
  | 0, n, h => by
      simp only [natToStrCharsF, digitsToNat, List.foldl]
      rw [digitChar_toNat n (by omega)]
      omega
  | f + 1, n, h => by
      by_cases h10 : n < 10
      · simp only [natToStrCharsF, if_pos h10, digitsToNat, List.foldl]
        rw [digitChar_toNat n h10]
        omega
      · have hd : n / 10 < n := Nat.div_lt_self (by omega) (by omega)
        have ih := ntsc_val f (n / 10) (by omega)
        simp only [natToStrCharsF, if_neg h10, digitsToNat, List.foldl_append,
          List.foldl]
        simp only [digitsToNat] at ih
        rw [ih, digitChar_toNat (n % 10) (Nat.mod_lt n (by omega))]
        omega

/-- Decimal rendering of a positive number never starts with the zero
digit. -/
theorem ntsc_head : ∀ f n, 1 ≤ n → n ≤ f + 9 → ∀ c rest,
    natToStrCharsF f n = c :: rest → c ≠ '0'
  | 0, n, h1, h2, c, rest => by
      intro he
      simp only [natToStrCharsF] at he
      cases he
      intro hz
      have : (digitChar n).toNat = 48 + n := digitChar_toNat n (by omega)
      rw [hz] at this
      simp at this
      omega
  | f + 1, n, h1, h2, c, rest => by
      intro he
      by_cases h10 : n < 10
      · simp only [natToStrCharsF, if_pos h10] at he
        cases he
        intro hz
        have : (digitChar n).toNat = 48 + n := digitChar_toNat n h10
        rw [hz] at this
        simp at this
        omega
      · simp only [natToStrCharsF, if_neg h10] at he
        cases hA : natToStrCharsF f (n / 10) with
        | nil => exact absurd hA (ntsc_ne_nil f (n / 10))
        | cons c0 r0 =>
            rw [hA] at he
            have hd : n / 10 < n := Nat.div_lt_self (by omega) (by omega)
            have h1d : 1 ≤ n / 10 := Nat.one_le_div_iff (by omega) |>.2 (by omega)
            have hc0 : c = c0 := by
              simpa using congrArg List.head? he.symm
            rw [hc0]
            exact ntsc_head f (n / 10) h1d (by omega) c0 r0 hA

/-- The characters of the decimal rendering of a number. -/
theorem natToStr_toList (n : Nat) : (natToStr n).toList = natToStrChars n := rfl

/-- Every character of the decimal rendering is a digit. -/
theorem natToStrChars_digits (n : Nat) :
    ∀ c ∈ natToStrChars n, isDigitChar c = true :=
  ntsc_digits n n (by omega)

/-- The decimal rendering is nonempty. -/
theorem natToStrChars_ne_nil (n : Nat) : natToStrChars n ≠ [] :=
  ntsc_ne_nil n n

/-- A decimal-rendered number is a canonical array index and parses back
to itself: the bridge between walkSet bracket indexes and walkGet
property segments. -/
theorem parseCanonIdx_natToStr (n : Nat) : parseCanonIdx (natToStr n) = some n := by
  unfold parseCanonIdx
  have htl : (natToStr n).toList = natToStrCharsF n n := rfl
  rw [htl]
  cases h : natToStrCharsF n n with
  | nil => exact absurd h (ntsc_ne_nil n n)
  | cons c rest =>
      have hall : ∀ x ∈ c :: rest, isDigitChar x = true := by
        rw [← h]; exact ntsc_digits n n (by omega)
      have himp : c = '0' → rest = [] := by
        intro hz
        by_cases h1 : 1 ≤ n
        · exact absurd hz (ntsc_head n n h1 (by omega) c rest h)
        · have hn : n = 0 := by omega
          subst hn
          simp [natToStrCharsF] at h
          exact h.2
      show (if ((c :: rest).all isDigitChar && decide (c = '0' → rest = []))
          = true then some (digitsToNat (c :: rest)) else none) = some n
      rw [if_pos]
      · have := ntsc_val n n (by omega)
        rw [h] at this
        rw [this]
      · simp only [Bool.and_eq_true, decide_eq_true_eq]
        exact ⟨by simpa [List.all_eq_true] using hall, himp⟩

/-- takeWhile over a satisfied run followed by a failing character. -/
theorem takeWhile_run {α : Type} (p : α → Bool) :
    ∀ (w : List α) (b : α) (t : List α), (∀ c ∈ w, p c = true) → p b = false →
      (w ++ b :: t).takeWhile p = w
  | [], b, t, _, hb => by simp [List.takeWhile, hb]
  | c :: w, b, t, hw, hb => by
      have hc : p c = true := hw c (by simp)
      rw [List.cons_append, List.takeWhile_cons, if_pos hc,
        takeWhile_run p w b t (fun x hx => hw x (by simp [hx])) hb]

/-- dropWhile over a satisfied run followed by a failing character. -/
theorem dropWhile_run {α : Type} (p : α → Bool) :
    ∀ (w : List α) (b : α) (t : List α), (∀ c ∈ w, p c = true) → p b = false →
      (w ++ b :: t).dropWhile p = b :: t
  | [], b, t, _, hb => by simp [List.dropWhile, hb]
  | c :: w, b, t, hw, hb => by
      have hc : p c = true := hw c (by simp)
      rw [List.cons_append, List.dropWhile_cons, if_pos hc]
      exact dropWhile_run p w b t (fun x hx => hw x (by simp [hx])) hb

/-- The bracket scanner leaves the empty list alone at any fuel. -/
theorem bracketF_nil : ∀ f, bracketF f [] = []
  | 0 => rfl
  | _ + 1 => rfl

/-- The bracket scanner is fuel-irrelevant once the fuel covers the
input length, so the length-fuelled wrapper obeys clean equations. -/
theorem bracketF_irrel : ∀ f1 f2 (l : List Char), l.length ≤ f1 →
    l.length ≤ f2 → bracketF f1 l = bracketF f2 l
  | 0, f2, l, h1, _ => by
      have : l = [] := List.eq_nil_of_length_eq_zero (by omega)
      subst this
      rw [bracketF_nil, bracketF_nil]
  | f1 + 1, 0, l, _, h2 => by
      have : l = [] := List.eq_nil_of_length_eq_zero (by omega)
      subst this
      rw [bracketF_nil, bracketF_nil]
  | f1 + 1, f2 + 1, [], _, _ => rfl
  | f1 + 1, f2 + 1, c :: rest, h1, h2 => by
      have hr1 : rest.length ≤ f1 := by simp at h1; omega
      have hr2 : rest.length ≤ f2 := by simp at h2; omega
      by_cases hc : c = '['
      · subst hc
        simp only [bracketF, if_pos rfl]
        rcases htw : rest.takeWhile isWordChar with _ | ⟨w, ws⟩ <;>
          rcases hdw : rest.dropWhile isWordChar with _ | ⟨d, r2⟩
        · rw [bracketF_irrel f1 f2 rest hr1 hr2]
        · simp only [if_true, bracketF_irrel f1 f2 rest hr1 hr2]
        · rw [bracketF_irrel f1 f2 rest hr1 hr2]
        · have hlen : r2.length ≤ rest.length - 1 := by
            have := (List.dropWhile_suffix (l := rest) (p := isWordChar)).length_le
            rw [hdw] at this
            simp at this
            omega
          simp only [if_true]
          by_cases hd : d = ']'
          · subst hd
            show (if (']' : Char) = ']' then '.' :: (w :: ws) ++ bracketF f1 r2
                else '[' :: bracketF f1 rest) =
              (if (']' : Char) = ']' then '.' :: (w :: ws) ++ bracketF f2 r2
                else '[' :: bracketF f2 rest)
            rw [if_pos rfl, if_pos rfl,
              bracketF_irrel f1 f2 r2 (by omega) (by omega)]
          · show (if d = ']' then '.' :: (w :: ws) ++ bracketF f1 r2
                else '[' :: bracketF f1 rest) =
              (if d = ']' then '.' :: (w :: ws) ++ bracketF f2 r2
                else '[' :: bracketF f2 rest)
            rw [if_neg hd, if_neg hd, bracketF_irrel f1 f2 rest hr1 hr2]
      · simp only [bracketF, if_neg hc]
        rw [bracketF_irrel f1 f2 rest hr1 hr2]

/-- The bracket conversion passes over a character that opens no
bracket. -/
theorem bracket_cons_plain (c : Char) (l : List Char) (hc : c ≠ '[') :
    bracketToDotChars (c :: l) = c :: bracketToDotChars l := by
  show bracketF (c :: l).length (c :: l) = _
  simp only [List.length_cons, bracketF, if_neg hc]
  rfl

/-- The bracket conversion passes over a block free of opening
brackets. -/
theorem bracket_append_noopen : ∀ (l1 l2 : List Char),
    (∀ c ∈ l1, c ≠ '[') → bracketToDotChars (l1 ++ l2) = l1 ++ bracketToDotChars l2
  | [], l2, _ => rfl
  | c :: l1, l2, h => by
      rw [List.cons_append,
        bracket_cons_plain c (l1 ++ l2) (h c (by simp)),
        bracket_append_noopen l1 l2 (fun x hx => h x (by simp [hx])),
        List.cons_append]

/-- The bracket conversion rewrites a bracketed word run into a dot and
the run, then continues after the closing bracket. -/
theorem bracket_open (w t : List Char) (hne : w ≠ [])
    (hw : ∀ c ∈ w, isWordChar c = true) :
    bracketToDotChars ('[' :: (w ++ ']' :: t)) = '.' :: (w ++ bracketToDotChars t) := by
  show bracketF ('[' :: (w ++ ']' :: t)).length ('[' :: (w ++ ']' :: t)) = _
  simp only [List.length_cons, bracketF, if_pos rfl]
  rw [takeWhile_run isWordChar w ']' t hw (by decide),
    dropWhile_run isWordChar w ']' t hw (by decide)]
  rcases w with _ | ⟨w0, ws⟩
  · exact absurd rfl hne
  · simp only [if_pos rfl]
    rw [bracketF_irrel ((w0 :: ws) ++ ']' :: t).length t.length t (by simp; omega)
      (by omega)]
    rfl

/-- An addressable key is nonempty and free of dots and opening
brackets. -/
theorem goodKey_chars (k : String) (h : goodKey k = true) :
    k.toList ≠ [] ∧ (∀ c ∈ k.toList, c ≠ '.') ∧ ∀ c ∈ k.toList, c ≠ '[' := by
  simp only [goodKey, Bool.and_eq_true, Bool.not_eq_true'] at h
  obtain ⟨⟨h1, h2⟩, h3⟩ := h
  refine ⟨by simpa using h1, ?_, ?_⟩
  · intro c hc he
    subst he
    exact absurd hc (by simpa using h2)
  · intro c hc he
    subst he
    exact absurd hc (by simpa using h3)

/-- Decimal rendering with adequate fuel yields only word characters. -/
theorem ntsc_words : ∀ f n, n ≤ f + 9 → ∀ c ∈ natToStrCharsF f n,
    isWordChar c = true
  | 0, n, h => by
      intro c hc
      simp [natToStrCharsF] at hc
      subst hc
      exact isWord_digitChar n (by omega)
  | f + 1, n, h => by
      intro c hc
      by_cases h10 : n < 10
      · simp [natToStrCharsF, h10] at hc
        subst hc
        exact isWord_digitChar n h10
      · simp [natToStrCharsF, h10] at hc
        rcases hc with hc | hc
        · have hd : n / 10 < n := Nat.div_lt_self (by omega) (by omega)
          exact ntsc_words f (n / 10) (by omega) c hc
        · subst hc
          exact isWord_digitChar _ (Nat.mod_lt n (by omega))

/-- Splitting a dot-free list yields that single piece. -/
theorem split_nodot : ∀ l : List Char, (∀ c ∈ l, c ≠ '.') →
    splitDotChars l = [l]
  | [], _ => rfl
  | c :: rest, h => by
      simp only [splitDotChars, if_neg (h c (by simp))]
      rw [split_nodot rest (fun x hx => h x (by simp [hx]))]

/-- Splitting cuts at the first dot after a dot-free block. -/
theorem split_append_dot : ∀ (l1 l2 : List Char), (∀ c ∈ l1, c ≠ '.') →
    splitDotChars (l1 ++ '.' :: l2) = l1 :: splitDotChars l2
  | [], l2, _ => by simp [splitDotChars]
  | c :: l1, l2, h => by
      have hrec := split_append_dot l1 l2 (fun x hx => h x (by simp [hx]))
      rw [List.cons_append]
      show (if c = '.' then [] :: splitDotChars (l1 ++ '.' :: l2)
          else match splitDotChars (l1 ++ '.' :: l2) with
            | s :: ss => (c :: s) :: ss
            | [] => [[c]]) = (c :: l1) :: splitDotChars l2
      rw [if_neg (h c (by simp)), hrec]

/-- Stripping leaves a list alone when its head is not a dot. -/
theorem strip_cons_nodot (c : Char) (l : List Char) (h : c ≠ '.') :
    stripLeadingDotChars (c :: l) = c :: l := by
  simp [stripLeadingDotChars, h]

/-- Stripping removes a leading dot. -/
theorem strip_dot (l : List Char) : stripLeadingDotChars ('.' :: l) = l := rfl

/-- Characters of a rendered address appended to a nonempty current
path. -/
theorem renderFrom_toList : ∀ (addr : List PStep) (cur : String),
    cur.toList ≠ [] →
    (renderFrom cur addr).toList = cur.toList ++ tailChars addr
  | [], cur, _ => by simp [renderFrom, tailChars]
  | .fld k :: rest, cur, h => by
      have hne : ¬ cur = "" := by
        intro he; subst he; exact h rfl
      have hstep : renderFrom cur (.fld k :: rest) =
          renderFrom (joinProp cur k) rest := rfl
      have hj : (joinProp cur k).toList = cur.toList ++ '.' :: k.toList := by
        simp [joinProp, if_neg hne, String.toList, String.data_append]
      rw [hstep, renderFrom_toList rest (joinProp cur k) (by rw [hj]; simp),
        hj, tailChars]
      simp
  | .idx i :: rest, cur, h => by
      have hstep : renderFrom cur (.idx i :: rest) =
          renderFrom (joinIdx cur i) rest := rfl
      have hj : (joinIdx cur i).toList =
          cur.toList ++ '[' :: (natToStrChars i ++ [']']) := by
        simp [joinIdx, String.toList, String.data_append, natToStr]
      rw [hstep, renderFrom_toList rest (joinIdx cur i) (by rw [hj]; simp),
        hj, tailChars]
      simp

/-- Characters of an address rendered from the empty path, property-first
case. -/
theorem render_fld_chars (k : String) (rest : List PStep)
    (hk : k.toList ≠ []) :
    (renderFrom "" (.fld k :: rest)).toList = k.toList ++ tailChars rest := by
  have hstep : renderFrom "" (.fld k :: rest) =
      renderFrom (joinProp "" k) rest := rfl
  have hj : (joinProp "" k).toList = k.toList := by
    simp [joinProp, String.toList, String.data_append]
  rw [hstep, renderFrom_toList rest (joinProp "" k) (by rw [hj]; exact hk), hj]

/-- Characters of an address rendered from the empty path, index-first
case. -/
theorem render_idx_chars (i : Nat) (rest : List PStep) :
    (renderFrom "" (.idx i :: rest)).toList =
      '[' :: (natToStrChars i ++ ']' :: tailChars rest) := by
  have hstep : renderFrom "" (.idx i :: rest) =
      renderFrom (joinIdx "" i) rest := rfl
  have hj : (joinIdx "" i).toList = '[' :: (natToStrChars i ++ [']']) := by
    simp [joinIdx, String.toList, String.data_append, natToStr]
  rw [hstep, renderFrom_toList rest (joinIdx "" i) (by rw [hj]; simp), hj]
  simp

/-- The bracket conversion of the tail characters of a valid address is
its dot-separated form. -/
theorem bracket_tail : ∀ (addr : List PStep), validAddr addr = true →
    bracketToDotChars (tailChars addr) = dotChars addr
  | [], _ => rfl
  | .fld k :: rest, h => by
      simp only [validAddr, List.all_cons, Bool.and_eq_true] at h
      obtain ⟨hk, hrest⟩ := h
      obtain ⟨-, -, hkop⟩ := goodKey_chars k hk
      rw [tailChars, bracket_cons_plain '.' _ (by decide),
        bracket_append_noopen k.toList _ hkop,
        bracket_tail rest (by simpa [validAddr] using hrest)]
      rfl
  | .idx i :: rest, h => by
      simp only [validAddr, List.all_cons, Bool.and_eq_true] at h
      rw [tailChars, bracket_open (natToStrChars i) _ (natToStrChars_ne_nil i)
        (ntsc_words i i (by omega)),
        bracket_tail rest (by simpa [validAddr] using h.2)]
      rfl

/-- A rendered step of a valid address contains no dot. -/
theorem stepStr_nodot (st : PStep) (h : validAddr [st] = true) :
    ∀ c ∈ (stepStr st).toList, c ≠ '.' := by
  cases st with
  | fld k =>
      have hk : goodKey k = true := by simpa [validAddr] using h
      exact (goodKey_chars k hk).2.1
  | idx i =>
      intro c hc
      exact digit_ne_dot c (natToStrChars_digits i c hc)

/-- Splitting a dot-free block followed by the dot-separated form of a
valid address yields the block and the rendered steps. -/
theorem split_dotChars : ∀ (addr : List PStep) (l0 : List Char),
    (∀ c ∈ l0, c ≠ '.') → validAddr addr = true →
    splitDotChars (l0 ++ dotChars addr) =
      l0 :: addr.map (fun st => (stepStr st).toList)
  | [], l0, h0, _ => by
      simp only [dotChars, List.append_nil, List.map_nil]
      rw [split_nodot l0 h0]
  | st :: rest, l0, h0, h => by
      have hva : validAddr rest = true := by
        simp only [validAddr, List.all_cons, Bool.and_eq_true] at h ⊢
        exact h.2
      have hst : validAddr [st] = true := by
        simp only [validAddr, List.all_cons, List.all_nil, Bool.and_eq_true]
          at h ⊢
        exact ⟨h.1, trivial⟩
      rw [dotChars, split_append_dot l0 _ h0,
        split_dotChars rest (stepStr st).toList (stepStr_nodot st hst) hva,
        List.map_cons]

/-- The walkGet path normalisation recovers the steps of a rendered
nonempty valid address: the bracket conversion, the strip of the leading
dot and the dot split undo the scanner's path building exactly. -/
theorem pathSegs_render (addr : List PStep) (hne : addr ≠ [])
    (hva : validAddr addr = true) :
    pathSegs (renderFrom "" addr) = addr.map stepStr := by
  cases addr with
  | nil => exact absurd rfl hne
  | cons s0 rest =>
      have hvr : validAddr rest = true := by
        simp only [validAddr, List.all_cons, Bool.and_eq_true] at hva ⊢
        exact hva.2
      cases s0 with
      | fld k =>
          have hk : goodKey k = true := by
            simp only [validAddr, List.all_cons, Bool.and_eq_true] at hva
            exact hva.1
          obtain ⟨hkne, hkdot, hkop⟩ := goodKey_chars k hk
          unfold pathSegs
          rw [render_fld_chars k rest hkne,
            bracket_append_noopen k.toList _ hkop, bracket_tail rest hvr]
          cases hkl : k.toList with
          | nil => exact absurd hkl hkne
          | cons c cs =>
              rw [List.cons_append,
                strip_cons_nodot c _ (hkdot c (by rw [hkl]; simp)),
                ← List.cons_append, ← hkl,
                split_dotChars rest k.toList hkdot hvr]
              simp only [List.map_cons, List.map_map]
              exact congrArg₂ List.cons rfl
                (List.map_congr_left (fun st _ => rfl))
      | idx i =>
          unfold pathSegs
          rw [render_idx_chars i rest,
            bracket_open (natToStrChars i) _ (natToStrChars_ne_nil i)
              (ntsc_words i i (by omega)),
            bracket_tail rest hvr, strip_dot,
            split_dotChars rest (natToStrChars i)
              (fun c hc => digit_ne_dot c (natToStrChars_digits i c hc)) hvr]
          simp only [List.map_cons, List.map_map]
          exact congrArg₂ List.cons rfl
            (List.map_congr_left (fun st _ => rfl))

/-- First-match lookup agrees with the optional lookup when it hits. -/
theorem findField_lookup : ∀ (fs : JFields) (k : String) (w : JValue),
    findField fs k = some w → lookupField fs k = w
  | .nil, k, w, h => by simp [findField] at h
  | .cons k0 v rest, k, w, h => by
      by_cases hk : k0 = k
      · simp only [findField, if_pos hk] at h
        cases h
        simp [lookupField, if_pos hk]
      · simp only [findField, if_neg hk] at h
        simp only [lookupField, if_neg hk]
        exact findField_lookup rest k w h

/-- A successful lookup key is owned. -/
theorem findField_hasKey : ∀ (fs : JFields) (k : String) (w : JValue),
    findField fs k = some w → hasKeyF fs k = true
  | .nil, k, w, h => by simp [findField] at h
  | .cons k0 v rest, k, w, h => by
      by_cases hk : k0 = k
      · simp [hasKeyF, hk]
      · simp only [findField, if_neg hk] at h
        simp [hasKeyF, hk, findField_hasKey rest k w h]

/-- Looked-up fields of a value with addressable keys have addressable
key and value. -/
theorem findField_good : ∀ (fs : JFields) (k : String) (w : JValue),
    goodKeysF fs = true → findField fs k = some w →
    goodKey k = true ∧ goodKeys w = true
  | .nil, k, w, _, h => by simp [findField] at h
  | .cons k0 v rest, k, w, hg, h => by
      simp only [goodKeysF, Bool.and_eq_true] at hg
      by_cases hk : k0 = k
      · simp only [findField, if_pos hk] at h
        cases h
        exact ⟨hk ▸ hg.1.1, hg.1.2⟩
      · simp only [findField, if_neg hk] at h
        exact findField_good rest k w hg.2 h

/-- Items of a value with addressable keys have addressable keys. -/
theorem getI_good : ∀ (xs : JItems) (i : Nat) (w : JValue),
    goodKeysI xs = true → xs.get? i = some w → goodKeys w = true
  | .nil, i, w, _, h => by simp [JItems.get?] at h
  | .cons v rest, 0, w, hg, h => by
      simp only [JItems.get?] at h
      cases h
      simp only [goodKeysI, Bool.and_eq_true] at hg
      exact hg.1
  | .cons v rest, i + 1, w, hg, h => by
      simp only [JItems.get?] at h
      simp only [goodKeysI, Bool.and_eq_true] at hg
      exact getI_good rest i w hg.2 h

/-- A present item position is below the length. -/
theorem getI_lt : ∀ (xs : JItems) (i : Nat) (w : JValue),
    xs.get? i = some w → i < xs.length
  | .nil, i, w, h => by simp [JItems.get?] at h
  | .cons v rest, 0, w, _ => by simp [JItems.length]
  | .cons v rest, i + 1, w, h => by
      simp only [JItems.get?] at h
      have := getI_lt rest i w h
      simp [JItems.length]
      omega

/-- walkGet, fed the rendered segments of a structural address, follows
the structure: every structural hit is reproduced by the string
traversal. -/
theorem wg_struct : ∀ (a : List PStep) (v r : JValue),
    structGet v a = some r → walkGetSegs v (a.map stepStr) = r
  | [], v, r, h => by
      simp only [structGet, Option.some.injEq] at h
      subst h
      rfl
  | .fld k :: rest, v, r, h => by
      cases v with
      | obj fs =>
          simp only [structGet] at h
          cases hf : findField fs k with
          | none => rw [hf] at h; simp at h
          | some w =>
              rw [hf] at h
              rw [List.map_cons]
              show (if truthy (.obj fs) && isObject (.obj fs) &&
                  keyIn (.obj fs) k then
                  walkGetSegs (readOwn (.obj fs) k) (rest.map stepStr)
                  else .undef) = r
              rw [if_pos (by simp [truthy, isObject, keyIn, hf]),
                show readOwn (.obj fs) k = w by
                  simp [readOwn, findField_lookup fs k w hf]]
              exact wg_struct rest w r h
      | ref d fs =>
          simp only [structGet] at h
          cases hf : findField fs k with
          | none => rw [hf] at h; simp at h
          | some w =>
              rw [hf] at h
              rw [List.map_cons]
              show (if truthy (.ref d fs) && isObject (.ref d fs) &&
                  keyIn (.ref d fs) k then
                  walkGetSegs (readOwn (.ref d fs) k) (rest.map stepStr)
                  else .undef) = r
              rw [if_pos (by simp [truthy, isObject, keyIn, hf]),
                show readOwn (.ref d fs) k = w by
                  simp [readOwn, findField_lookup fs k w hf]]
              exact wg_struct rest w r h
      | undef => simp [structGet] at h
      | null => simp [structGet] at h
      | bool b => simp [structGet] at h
      | num n => simp [structGet] at h
      | str s => simp [structGet] at h
      | arr xs => simp [structGet] at h
      | subleaf a b c d e => simp [structGet] at h
  | .idx i :: rest, v, r, h => by
      cases v with
      | arr xs =>
          simp only [structGet] at h
          cases hf : xs.get? i with
          | none => rw [hf] at h; simp at h
          | some w =>
              rw [hf] at h
              rw [List.map_cons]
              show (if truthy (.arr xs) && isObject (.arr xs) &&
                  keyIn (.arr xs) (stepStr (.idx i)) then
                  walkGetSegs (readOwn (.arr xs) (stepStr (.idx i)))
                    (rest.map stepStr)
                  else .undef) = r
              have hki : keyIn (.arr xs) (stepStr (.idx i)) = true := by
                simp only [keyIn, stepStr, parseCanonIdx_natToStr]
                simpa using getI_lt xs i w hf
              rw [if_pos (by simp [truthy, isObject, hki]),
                show readOwn (.arr xs) (stepStr (.idx i)) = w by
                  simp [readOwn, stepStr, parseCanonIdx_natToStr, hf]]
              exact wg_struct rest w r h
      | undef => simp [structGet] at h
      | null => simp [structGet] at h
      | bool b => simp [structGet] at h
      | num n => simp [structGet] at h
      | str s => simp [structGet] at h
      | obj fs => simp [structGet] at h
      | ref d fs => simp [structGet] at h
      | subleaf a b c d e => simp [structGet] at h

/-- A structural hit into a value with addressable keys follows a valid
address. -/
theorem structGet_valid : ∀ (a : List PStep) (v r : JValue),
    goodKeys v = true → structGet v a = some r → validAddr a = true
  | [], v, r, _, _ => rfl
  | .fld k :: rest, v, r, hg, h => by
      cases v with
      | obj fs =>
          simp only [structGet] at h
          cases hf : findField fs k with
          | none => rw [hf] at h; simp at h
          | some w =>
              rw [hf] at h
              have hgw := findField_good fs k w (by simpa [goodKeys] using hg) hf
              simp only [validAddr, List.all_cons, Bool.and_eq_true]
              exact ⟨hgw.1, by
                simpa [validAddr] using structGet_valid rest w r hgw.2 h⟩
      | ref d fs =>
          simp only [structGet] at h
          cases hf : findField fs k with
          | none => rw [hf] at h; simp at h
          | some w =>
              rw [hf] at h
              have hgw := findField_good fs k w (by simpa [goodKeys] using hg) hf
              simp only [validAddr, List.all_cons, Bool.and_eq_true]
              exact ⟨hgw.1, by
                simpa [validAddr] using structGet_valid rest w r hgw.2 h⟩
      | undef => simp [structGet] at h
      | null => simp [structGet] at h
      | bool b => simp [structGet] at h
      | num n => simp [structGet] at h
      | str s => simp [structGet] at h
      | arr xs => simp [structGet] at h
      | subleaf a b c d e => simp [structGet] at h
  | .idx i :: rest, v, r, hg, h => by
      cases v with
      | arr xs =>
          simp only [structGet] at h
          cases hf : xs.get? i with
          | none => rw [hf] at h; simp at h
          | some w =>
              rw [hf] at h
              have hgw := getI_good xs i w (by simpa [goodKeys] using hg) hf
              simp only [validAddr, List.all_cons, Bool.and_eq_true]
              exact ⟨trivial, by
                simpa [validAddr] using structGet_valid rest w r hgw h⟩
      | undef => simp [structGet] at h
      | null => simp [structGet] at h
      | bool b => simp [structGet] at h
      | num n => simp [structGet] at h
      | str s => simp [structGet] at h
      | obj fs => simp [structGet] at h
      | ref d fs => simp [structGet] at h
      | subleaf a b c d e => simp [structGet] at h

mutual

/-- The scanner builds exactly the rendered structural addresses: the
accumulator is kept in front and every emitted path is the rendering of
the shadow address from the current path. -/
theorem extractRefs_shadow : ∀ (v : JValue) (cur : String)
    (subs : List RefEntry),
    extractRefs v cur subs =
      subs ++ (extractRefsA v).map (fun e => (renderFrom cur e.1, e.2))
  | .arr items, cur, subs => by
      rw [show extractRefs (.arr items) cur subs
          = extractItems items cur 0 subs from rfl,
        extractItems_shadow items cur 0 subs]
      rfl
  | .obj fields, cur, subs => by
      rw [show extractRefs (.obj fields) cur subs
          = extractProps fields cur subs from rfl,
        extractProps_shadow fields cur subs]
      rfl
  | .ref d fields, cur, subs => by
      rw [show extractRefs (.ref d fields) cur subs
          = extractProps fields cur subs from rfl,
        extractProps_shadow fields cur subs]
      rfl
  | .undef, cur, subs => by simp [extractRefs, extractRefsA]
  | .null, cur, subs => by simp [extractRefs, extractRefsA]
  | .bool b, cur, subs => by simp [extractRefs, extractRefsA]
  | .num n, cur, subs => by simp [extractRefs, extractRefsA]
  | .str st, cur, subs => by simp [extractRefs, extractRefsA]
  | .subleaf a b c d e, cur, subs => by simp [extractRefs, extractRefsA]

/-- Shadow correspondence of the array loop. -/
theorem extractItems_shadow : ∀ (items : JItems) (cur : String) (i : Nat)
    (subs : List RefEntry),
    extractItems items cur i subs =
      subs ++ (extractItemsA items i).map (fun e => (renderFrom cur e.1, e.2))
  | .nil, cur, i, subs => by simp [extractItems, extractItemsA]
  | .cons x rest, cur, i, subs => by
      rw [show extractItems (.cons x rest) cur i subs
          = extractItems rest cur (i + 1)
            (if isObject x then
              if isFirestoreRef x then subs ++ [(joinIdx cur i, x)]
              else extractRefs x (joinIdx cur i) subs
            else subs) from rfl,
        extractItems_shadow rest cur (i + 1) _]
      by_cases hO : isObject x
      · by_cases hR : isFirestoreRef x
        · simp [extractItemsA, hO, hR, renderFrom, List.append_assoc]
        · rw [if_pos hO, if_neg hR, extractRefs_shadow x (joinIdx cur i) subs]
          simp only [extractItemsA, if_pos hO, if_neg hR, List.map_append,
            List.map_map, List.append_assoc]
          refine congrArg (subs ++ ·) (congrArg (· ++ _) ?_)
          exact List.map_congr_left fun e he => by
            simp [renderFrom, Function.comp]
      · simp [extractItemsA, hO]

/-- Shadow correspondence of the property loop. -/
theorem extractProps_shadow : ∀ (fields : JFields) (cur : String)
    (subs : List RefEntry),
    extractProps fields cur subs =
      subs ++ (extractPropsA fields).map (fun e => (renderFrom cur e.1, e.2))
  | .nil, cur, subs => by simp [extractProps, extractPropsA]
  | .cons k v rest, cur, subs => by
      rw [show extractProps (.cons k v rest) cur subs
          = extractProps rest cur
            (if isObject v then
              if isFirestoreRef v then subs ++ [(joinProp cur k, v)]
              else extractRefs v (joinProp cur k) subs
            else subs) from rfl,
        extractProps_shadow rest cur _]
      by_cases hO : isObject v
      · by_cases hR : isFirestoreRef v
        · simp [extractPropsA, hO, hR, renderFrom, List.append_assoc]
        · rw [if_pos hO, if_neg hR, extractRefs_shadow v (joinProp cur k) subs]
          simp only [extractPropsA, if_pos hO, if_neg hR, List.map_append,
            List.map_map, List.append_assoc]
          refine congrArg (subs ++ ·) (congrArg (· ++ _) ?_)
          exact List.map_congr_left fun e he => by
            simp [renderFrom, Function.comp]
      · simp [extractPropsA, hO]

end

/-- The empty address addresses the value itself. -/
theorem structGet_nil (v : JValue) : structGet v [] = some v := by
  cases v <;> rfl

mutual

/-- Every shadow entry of a duplicate-free value is a reference found at
its own address, and its address is nonempty. -/
theorem soundA_refs : ∀ (v : JValue), nodupKeys v = true →
    ∀ a r, (a, r) ∈ extractRefsA v →
    isFirestoreRef r = true ∧ structGet v a = some r ∧ a ≠ []
  | .arr items, hn, a, r, hm => by
      have hni : nodupI items = true := by simpa [nodupKeys] using hn
      obtain ⟨hR, j, a2, x, ha, hget, hle, hsg⟩ :=
        soundA_items items 0 hni a r hm
      subst ha
      refine ⟨hR, ?_, by simp⟩
      simp only [structGet]
      rw [show j - 0 = j from rfl] at hget
      rw [hget]
      exact hsg
  | .obj fields, hn, a, r, hm => by
      have hnf : nodupF fields = true := by simpa [nodupKeys] using hn
      obtain ⟨hR, k, a2, x, ha, hfind, hsg⟩ :=
        soundA_props fields hnf a r hm
      subst ha
      refine ⟨hR, ?_, by simp⟩
      simp only [structGet]
      rw [hfind]
      exact hsg
  | .ref d fields, hn, a, r, hm => by
      have hnf : nodupF fields = true := by simpa [nodupKeys] using hn
      obtain ⟨hR, k, a2, x, ha, hfind, hsg⟩ :=
        soundA_props fields hnf a r hm
      subst ha
      refine ⟨hR, ?_, by simp⟩
      simp only [structGet]
      rw [hfind]
      exact hsg
  | .undef, _, a, r, hm => by simp [extractRefsA] at hm
  | .null, _, a, r, hm => by simp [extractRefsA] at hm
  | .bool b, _, a, r, hm => by simp [extractRefsA] at hm
  | .num n, _, a, r, hm => by simp [extractRefsA] at hm
  | .str st, _, a, r, hm => by simp [extractRefsA] at hm
  | .subleaf a b c d e, _, a2, r, hm => by simp [extractRefsA] at hm

/-- Soundness of the shadow array loop: entries carry an index at least
the loop counter and a structural hit into the owning item. -/
theorem soundA_items : ∀ (items : JItems) (i : Nat), nodupI items = true →
    ∀ a r, (a, r) ∈ extractItemsA items i →
    isFirestoreRef r = true ∧ ∃ j a2 x, a = .idx j :: a2 ∧
      items.get? (j - i) = some x ∧ i ≤ j ∧ structGet x a2 = some r
  | .nil, i, _, a, r, hm => by simp [extractItemsA] at hm
  | .cons x rest, i, hn, a, r, hm => by
      have hnx : nodupKeys x = true ∧ nodupI rest = true := by
        simpa [nodupI, Bool.and_eq_true] using hn
      rw [extractItemsA, List.mem_append] at hm
      rcases hm with hm | hm
      · by_cases hO : isObject x
        · by_cases hR : isFirestoreRef x
          · rw [if_pos hO, if_pos hR, List.mem_singleton] at hm
            have ha : a = [PStep.idx i] := congrArg Prod.fst hm
            have hr : r = x := congrArg Prod.snd hm
            refine ⟨hr ▸ hR, i, [], x, ha, ?_, le_refl i, by rw [hr, structGet_nil]⟩
            simp [JItems.get?]
          · rw [if_pos hO, if_neg hR, List.mem_map] at hm
            obtain ⟨e, he, hea⟩ := hm
            obtain ⟨hRef, hsg, hne⟩ :=
              soundA_refs x hnx.1 e.1 e.2 (by simpa using he)
            have ha : PStep.idx i :: e.1 = a := congrArg Prod.fst hea
            have hr : e.2 = r := congrArg Prod.snd hea
            refine ⟨hr ▸ hRef, i, e.1, x, ha.symm, ?_, le_refl i, hr ▸ hsg⟩
            simp [JItems.get?]
        · rw [if_neg hO] at hm
          simp at hm
      · obtain ⟨hRef, j, a2, x2, ha, hget, hle, hsg⟩ :=
          soundA_items rest (i + 1) hnx.2 a r hm
        refine ⟨hRef, j, a2, x2, ha, ?_, by omega, hsg⟩
        have hj : j - i = (j - (i + 1)) + 1 := by omega
        rw [hj]
        simpa [JItems.get?] using hget

/-- Soundness of the shadow property loop: entries carry an owned key and
a structural hit into the owning field, first-match lookup included. -/
theorem soundA_props : ∀ (fields : JFields), nodupF fields = true →
    ∀ a r, (a, r) ∈ extractPropsA fields →
    isFirestoreRef r = true ∧ ∃ k a2 x, a = .fld k :: a2 ∧
      findField fields k = some x ∧ structGet x a2 = some r
  | .nil, _, a, r, hm => by simp [extractPropsA] at hm
  | .cons k0 v rest, hn, a, r, hm => by
      have hnu : hasKeyF rest k0 = false ∧ nodupKeys v = true ∧
          nodupF rest = true := by
        simpa [nodupF, Bool.and_eq_true, Bool.not_eq_true',
          and_assoc] using hn
      rw [extractPropsA, List.mem_append] at hm
      rcases hm with hm | hm
      · by_cases hO : isObject v
        · by_cases hR : isFirestoreRef v
          · rw [if_pos hO, if_pos hR, List.mem_singleton] at hm
            have ha : a = [PStep.fld k0] := congrArg Prod.fst hm
            have hr : r = v := congrArg Prod.snd hm
            refine ⟨hr ▸ hR, k0, [], v, ha, ?_, by rw [hr, structGet_nil]⟩
            simp [findField]
          · rw [if_pos hO, if_neg hR, List.mem_map] at hm
            obtain ⟨e, he, hea⟩ := hm
            obtain ⟨hRef, hsg, hne⟩ :=
              soundA_refs v hnu.2.1 e.1 e.2 (by simpa using he)
            have ha : PStep.fld k0 :: e.1 = a := congrArg Prod.fst hea
            have hr : e.2 = r := congrArg Prod.snd hea
            refine ⟨hr ▸ hRef, k0, e.1, v, ha.symm, ?_, hr ▸ hsg⟩
            simp [findField]
        · rw [if_neg hO] at hm
          simp at hm
      · obtain ⟨hRef, k2, a2, x2, ha, hfind, hsg⟩ :=
          soundA_props rest hnu.2.2 a r hm
        have hk : ¬ k0 = k2 := by
          intro he
          subst he
          rw [findField_hasKey rest k0 x2 hfind] at hnu
          exact absurd hnu.1 (by simp)
        refine ⟨hRef, k2, a2, x2, ha, ?_, hsg⟩
        simp only [findField, if_neg hk]
        exact hfind

end

/-- Extending two disjoint addresses by a common head keeps them
disjoint. -/
theorem disj_cons_same (s : PStep) (a b : List PStep)
    (h : disjointAddr a b = true) : disjointAddr (s :: a) (s :: b) = true := by
  simp only [disjointAddr, stepsLe, Bool.and_eq_true, Bool.not_eq_true'] at h ⊢
  simp [h.1, h.2]

/-- Addresses with different heads are disjoint. -/
theorem disj_cons_ne (s t : PStep) (a b : List PStep) (h : s ≠ t) :
    disjointAddr (s :: a) (t :: b) = true := by
  simp only [disjointAddr, stepsLe, Bool.and_eq_true, Bool.not_eq_true']
  simp [h, Ne.symm h]

/-- Pairwise disjointness survives a common head extension. -/
theorem pairwise_map_cons (s : PStep) (l : List ARefEntry)
    (h : List.Pairwise (fun e1 e2 => disjointAddr e1.1 e2.1 = true) l) :
    List.Pairwise (fun e1 e2 => disjointAddr e1.1 e2.1 = true)
      (l.map (fun e => (s :: e.1, e.2))) :=
  List.Pairwise.map _ (fun a b hab => disj_cons_same s a.1 b.1 hab) h

mutual

/-- The scanner of a duplicate-free value emits pairwise disjoint
addresses: no emitted reference sits inside another emitted reference,
the formal content of the stop-at-reference rule. -/
theorem pairA_refs : ∀ (v : JValue), nodupKeys v = true →
    List.Pairwise (fun e1 e2 => disjointAddr e1.1 e2.1 = true) (extractRefsA v)
  | .arr items, hn => (pairA_items items 0 (by simpa [nodupKeys] using hn)).1
  | .obj fields, hn => (pairA_props fields (by simpa [nodupKeys] using hn)).1
  | .ref d fields, hn => (pairA_props fields (by simpa [nodupKeys] using hn)).1
  | .undef, _ => by simp [extractRefsA]
  | .null, _ => by simp [extractRefsA]
  | .bool b, _ => by simp [extractRefsA]
  | .num n, _ => by simp [extractRefsA]
  | .str st, _ => by simp [extractRefsA]
  | .subleaf a b c d e, _ => by simp [extractRefsA]

/-- Pairwise disjointness and head shape through the array loop. -/
theorem pairA_items : ∀ (items : JItems) (i : Nat), nodupI items = true →
    List.Pairwise (fun e1 e2 => disjointAddr e1.1 e2.1 = true)
      (extractItemsA items i) ∧
    ∀ e ∈ extractItemsA items i, ∃ j a2, e.1 = .idx j :: a2 ∧ i ≤ j
  | .nil, i, _ => ⟨by simp [extractItemsA], by simp [extractItemsA]⟩
  | .cons x rest, i, hn => by
      have hnx : nodupKeys x = true ∧ nodupI rest = true := by
        simpa [nodupI, Bool.and_eq_true] using hn
      obtain ⟨hpr, hhr⟩ := pairA_items rest (i + 1) hnx.2
      have hshape : ∀ e, e ∈ (if isObject x then
          if isFirestoreRef x then [([PStep.idx i], x)]
          else (extractRefsA x).map (fun e => (PStep.idx i :: e.1, e.2))
        else []) → ∃ a2, e.1 = PStep.idx i :: a2 := by
        intro e he
        by_cases hO : isObject x
        · by_cases hR : isFirestoreRef x
          · rw [if_pos hO, if_pos hR, List.mem_singleton] at he
            exact ⟨[], by rw [he]⟩
          · rw [if_pos hO, if_neg hR, List.mem_map] at he
            obtain ⟨e2, he2, hee⟩ := he
            exact ⟨e2.1, by rw [← hee]⟩
        · rw [if_neg hO] at he; simp at he
      rw [extractItemsA]
      constructor
      · rw [List.pairwise_append]
        refine ⟨?_, hpr, ?_⟩
        · by_cases hO : isObject x
          · by_cases hR : isFirestoreRef x
            · simp [hO, hR]
            · simp only [if_pos hO, if_neg hR]
              exact pairwise_map_cons _ _ (pairA_refs x hnx.1)
          · simp [hO]
        · intro e1 he1 e2 he2
          obtain ⟨b2, he1s⟩ := hshape e1 he1
          obtain ⟨j, a2, hej, hij⟩ := hhr e2 he2
          rw [he1s, hej]
          exact disj_cons_ne _ _ _ _ (by intro hc; cases hc; omega)
      · intro e he
        rw [List.mem_append] at he
        rcases he with he | he
        · obtain ⟨a2, hes⟩ := hshape e he
          exact ⟨i, a2, hes, le_refl i⟩
        · obtain ⟨j, a2, hej, hij⟩ := hhr e he
          exact ⟨j, a2, hej, by omega⟩

/-- Pairwise disjointness and head shape through the property loop. -/
theorem pairA_props : ∀ (fields : JFields), nodupF fields = true →
    List.Pairwise (fun e1 e2 => disjointAddr e1.1 e2.1 = true)
      (extractPropsA fields) ∧
    ∀ e ∈ extractPropsA fields, ∃ k a2, e.1 = .fld k :: a2 ∧
      hasKeyF fields k = true
  | .nil, _ => ⟨by simp [extractPropsA], by simp [extractPropsA]⟩
  | .cons k0 v rest, hn => by
      have hnu : hasKeyF rest k0 = false ∧ nodupKeys v = true ∧
          nodupF rest = true := by
        simpa [nodupF, Bool.and_eq_true, Bool.not_eq_true', and_assoc] using hn
      obtain ⟨hpr, hhr⟩ := pairA_props rest hnu.2.2
      have hshape : ∀ e, e ∈ (if isObject v then
          if isFirestoreRef v then [([PStep.fld k0], v)]
          else (extractRefsA v).map (fun e => (PStep.fld k0 :: e.1, e.2))
        else []) → ∃ a2, e.1 = PStep.fld k0 :: a2 := by
        intro e he
        by_cases hO : isObject v
        · by_cases hR : isFirestoreRef v
          · rw [if_pos hO, if_pos hR, List.mem_singleton] at he
            exact ⟨[], by rw [he]⟩
          · rw [if_pos hO, if_neg hR, List.mem_map] at he
            obtain ⟨e2, he2, hee⟩ := he
            exact ⟨e2.1, by rw [← hee]⟩
        · rw [if_neg hO] at he; simp at he
      rw [extractPropsA]
      constructor
      · rw [List.pairwise_append]
        refine ⟨?_, hpr, ?_⟩
        · by_cases hO : isObject v
          · by_cases hR : isFirestoreRef v
            · simp [hO, hR]
            · simp only [if_pos hO, if_neg hR]
              exact pairwise_map_cons _ _ (pairA_refs v hnu.2.1)
          · simp [hO]
        · intro e1 he1 e2 he2
          obtain ⟨b2, he1s⟩ := hshape e1 he1
          obtain ⟨k2, a2, hej, hk2⟩ := hhr e2 he2
          rw [he1s, hej]
          refine disj_cons_ne _ _ _ _ (by
            intro hc
            cases hc
            rw [hk2] at hnu
            exact absurd hnu.1 (by simp))
      · intro e he
        rw [List.mem_append] at he
        rcases he with he | he
        · obtain ⟨a2, hes⟩ := hshape e he
          exact ⟨k0, a2, hes, by simp [hasKeyF]⟩
        · obtain ⟨k2, a2, hej, hk2⟩ := hhr e he
          exact ⟨k2, a2, hej, by simp [hasKeyF, hk2]⟩

end

/-- C7.  extractRefs never recurses into a detected reference: over a
duplicate-free value it emits exactly the rendered shadow addresses; every
emitted entry is a genuine reference found at its own nonempty address;
the emitted addresses are pairwise disjoint, so no emitted entry extends
the branch of another (a reference whose own fields also look
reference-like contributes exactly one entry and nothing below it); and
non-object leaves emit nothing. -/
theorem fire7_C7_scan_stops (v : JValue) (hn : nodupKeys v = true) :
    extractRefs v "" [] =
      (extractRefsA v).map (fun e => (renderFrom "" e.1, e.2)) ∧
    (∀ e ∈ extractRefsA v,
      isFirestoreRef e.2 = true ∧ structGet v e.1 = some e.2 ∧ e.1 ≠ []) ∧
    List.Pairwise (fun e1 e2 => disjointAddr e1.1 e2.1 = true)
      (extractRefsA v) ∧
    (∀ (w : JValue) (cur : String) (subs : List RefEntry),
      isObject w = false → extractRefs w cur subs = subs) := by
  refine ⟨by simpa using extractRefs_shadow v "" [], ?_, pairA_refs v hn, ?_⟩
  · intro e he
    exact soundA_refs v hn e.1 e.2 (by simpa using he)
  · intro w cur subs hw
    cases w with
    | obj fs => exact absurd hw (by simp [isObject])
    | arr xs => exact absurd hw (by simp [isObject])
    | ref d fs => exact absurd hw (by simp [isObject])
    | subleaf a b c d e => exact absurd hw (by simp [isObject])
    | undef => rfl
    | null => rfl
    | bool b => rfl
    | num n => rfl
    | str s => rfl

/-- C7 witness: a document with a reference at a.b whose own fields hold
a further reference-typed field c; the scan emits the single entry a.b
and the stop-at-reference conclusions hold at this input. -/
theorem fire7_C7_scan_stops_witness :
    nodupKeys (.obj (.cons "a" (.obj (.cons "b"
        (.ref 1 (.cons "c" (.ref 2 .nil) .nil)) .nil)) .nil)) = true ∧
    extractRefs (.obj (.cons "a" (.obj (.cons "b"
        (.ref 1 (.cons "c" (.ref 2 .nil) .nil)) .nil)) .nil)) "" [] =
      [("a.b", .ref 1 (.cons "c" (.ref 2 .nil) .nil))] ∧
    (extractRefs (.obj (.cons "a" (.obj (.cons "b"
        (.ref 1 (.cons "c" (.ref 2 .nil) .nil)) .nil)) .nil)) "" [] =
      (extractRefsA (.obj (.cons "a" (.obj (.cons "b"
        (.ref 1 (.cons "c" (.ref 2 .nil) .nil)) .nil)) .nil))).map
        (fun e => (renderFrom "" e.1, e.2)) ∧
    (∀ e ∈ extractRefsA (.obj (.cons "a" (.obj (.cons "b"
        (.ref 1 (.cons "c" (.ref 2 .nil) .nil)) .nil)) .nil)),
      isFirestoreRef e.2 = true ∧
      structGet (.obj (.cons "a" (.obj (.cons "b"
        (.ref 1 (.cons "c" (.ref 2 .nil) .nil)) .nil)) .nil)) e.1
        = some e.2 ∧ e.1 ≠ []) ∧
    List.Pairwise (fun e1 e2 => disjointAddr e1.1 e2.1 = true)
      (extractRefsA (.obj (.cons "a" (.obj (.cons "b"
        (.ref 1 (.cons "c" (.ref 2 .nil) .nil)) .nil)) .nil))) ∧
    (∀ (w : JValue) (cur : String) (subs : List RefEntry),
      isObject w = false → extractRefs w cur subs = subs)) :=
  ⟨by decide, by decide, fire7_C7_scan_stops _ (by decide)⟩

/-- C10.  The claim fails in general: a key containing a dot is recorded
verbatim in the path, but walkGet re-splits that path at the dot, so the
recorded path does not address the reference. -/
theorem fire7_C10_counterexample :
    extractRefs (.obj (.cons "a.b" (.ref 0 .nil) .nil)) "" [] =
      [("a.b", .ref 0 .nil)] ∧
    walkGet (.obj (.cons "a.b" (.ref 0 .nil) .nil)) "a.b" = .undef ∧
    JValue.undef ≠ .ref 0 .nil :=
  ⟨by decide, by decide, by decide⟩

/-- C10 (amended).  Over values whose object keys are addressable
(nonempty, without dots or opening brackets) and duplicate-free — the
invariants JS object literals mirrored from Firestore documents satisfy —
every entry (p, r) emitted by extractRefs from the empty base path is a
valid address into the value: walkGet returns exactly the recorded
reference handle. -/
theorem fire7_C10_amended (v : JValue) (hg : goodKeys v = true)
    (hn : nodupKeys v = true) (p : String) (r : JValue)
    (hm : (p, r) ∈ extractRefs v "" []) :
    walkGet v p = r ∧ isFirestoreRef r = true := by
  rw [extractRefs_shadow v "" []] at hm
  simp only [List.nil_append, List.mem_map] at hm
  obtain ⟨e, he, hpe⟩ := hm
  have hp : renderFrom "" e.1 = p := congrArg Prod.fst hpe
  have hr : e.2 = r := congrArg Prod.snd hpe
  obtain ⟨hRef, hsg, hne⟩ := soundA_refs v hn e.1 e.2 (by simpa using he)
  have hva := structGet_valid e.1 v e.2 hg hsg
  refine ⟨?_, hr ▸ hRef⟩
  rw [← hp]
  unfold walkGet
  rw [pathSegs_render e.1 hne hva]
  exact hr ▸ wg_struct e.1 v e.2 hsg

/-- C10 witness: a document holding a nested reference at a.b and an
array-item reference at c[0]; both recorded paths walkGet back to their
handles. -/
theorem fire7_C10_amended_witness :
    goodKeys (.obj (.cons "a" (.obj (.cons "b" (.ref 1 .nil) .nil))
      (.cons "c" (.arr (.cons (.ref 2 .nil) .nil)) .nil))) = true ∧
    nodupKeys (.obj (.cons "a" (.obj (.cons "b" (.ref 1 .nil) .nil))
      (.cons "c" (.arr (.cons (.ref 2 .nil) .nil)) .nil))) = true ∧
    ("a.b", JValue.ref 1 .nil) ∈ extractRefs
      (.obj (.cons "a" (.obj (.cons "b" (.ref 1 .nil) .nil))
        (.cons "c" (.arr (.cons (.ref 2 .nil) .nil)) .nil))) "" [] ∧
    ("c[0]", JValue.ref 2 .nil) ∈ extractRefs
      (.obj (.cons "a" (.obj (.cons "b" (.ref 1 .nil) .nil))
        (.cons "c" (.arr (.cons (.ref 2 .nil) .nil)) .nil))) "" [] ∧
    (walkGet (.obj (.cons "a" (.obj (.cons "b" (.ref 1 .nil) .nil))
      (.cons "c" (.arr (.cons (.ref 2 .nil) .nil)) .nil))) "a.b"
      = .ref 1 .nil ∧ isFirestoreRef (JValue.ref 1 .nil) = true) ∧
    (walkGet (.obj (.cons "a" (.obj (.cons "b" (.ref 1 .nil) .nil))
      (.cons "c" (.arr (.cons (.ref 2 .nil) .nil)) .nil))) "c[0]"
      = .ref 2 .nil ∧ isFirestoreRef (JValue.ref 2 .nil) = true) :=
  ⟨by decide, by decide, by decide, by decide,
    fire7_C10_amended _ (by decide) (by decide) "a.b" (.ref 1 .nil)
      (by decide),
    fire7_C10_amended _ (by decide) (by decide) "c[0]" (.ref 2 .nil)
      (by decide)⟩

/-- One unfolding of the array-segment parse over a known reversed
character list. -/
theorem parseArraySeg_cons (s : String) (c : Char) (r2 : List Char)
    (hrev : s.toList.reverse = c :: r2) :
    parseArraySeg s = (if c = ']' then
        match r2.takeWhile isDigitChar,
            r2.drop (r2.takeWhile isDigitChar).length with
        | _ :: _, b :: pre =>
            if b = '[' then
              if pre = [] then none
              else some (String.mk pre.reverse,
                digitsToNat (r2.takeWhile isDigitChar).reverse)
            else none
        | _, _ => none
      else none) := by
  unfold parseArraySeg
  rw [hrev]

/-- A segment without an opening bracket never parses as an array
segment. -/
theorem parseArraySeg_noopen (s : String)
    (h : ∀ c ∈ s.toList, c ≠ '[') : parseArraySeg s = none := by
  cases hrev : s.toList.reverse with
  | nil => unfold parseArraySeg; rw [hrev]
  | cons c r2 =>
      rw [parseArraySeg_cons s c r2 hrev]
      by_cases hc : c = ']'
      · rw [if_pos hc]
        cases hdrop : r2.drop (r2.takeWhile isDigitChar).length with
        | nil =>
            cases htw : r2.takeWhile isDigitChar with
            | nil => rfl
            | cons d ds => rfl
        | cons b pre =>
            have hb : b ∈ s.toList := by
              have h1 : b ∈ r2 := List.mem_of_mem_drop (by rw [hdrop]; simp)
              have h2 : b ∈ s.toList.reverse := by rw [hrev]; simp [h1]
              simpa using h2
            have hbne : b ≠ '[' := h b hb
            cases htw : r2.takeWhile isDigitChar with
            | nil => rfl
            | cons d ds =>
                show (if b = '[' then
                    if pre = [] then none
                    else some (String.mk pre.reverse,
                      digitsToNat (d :: ds).reverse)
                  else none) = none
                rw [if_neg hbne]
      · rw [if_neg hc]

/-- The characters of a rendered bracket segment. -/
theorem renderSeg_idx_toList (k : String) (i : Nat) :
    (renderSeg (.keyIdx k i)).toList =
      k.toList ++ '[' :: (natToStrChars i ++ [']']) := by
  simp [renderSeg, String.toList, String.data_append, natToStr]

/-- A rendered bracket segment parses back to its key and index. -/
theorem parseArraySeg_render (k : String) (i : Nat) (hk : goodKey k = true) :
    parseArraySeg (renderSeg (.keyIdx k i)) = some (k, i) := by
  obtain ⟨hkne, hkdot, hkop⟩ := goodKey_chars k hk
  have hrev : (renderSeg (.keyIdx k i)).toList.reverse =
      ']' :: ((natToStrChars i).reverse ++ '[' :: k.toList.reverse) := by
    rw [renderSeg_idx_toList]
    simp
  rw [parseArraySeg_cons _ ']' _ hrev, if_pos rfl]
  have htw : ((natToStrChars i).reverse ++
      '[' :: k.toList.reverse).takeWhile isDigitChar =
      (natToStrChars i).reverse := by
    refine takeWhile_run isDigitChar _ _ _ ?_ (by decide)
    intro c hc
    exact natToStrChars_digits i c (by simpa using hc)
  rw [htw, List.drop_left]
  cases hnn : (natToStrChars i).reverse with
  | nil => exact absurd (by simpa using hnn) (natToStrChars_ne_nil i)
  | cons d ds =>
      show (if ('[' : Char) = '[' then
          if k.toList.reverse = [] then none
          else some (String.mk k.toList.reverse.reverse,
            digitsToNat (d :: ds).reverse)
        else none) = some (k, i)
      rw [if_pos rfl, if_neg (by simpa using hkne), ← hnn]
      simp only [List.reverse_reverse]
      rw [show digitsToNat (natToStrChars i) = i from ntsc_val i i (by omega)]
      rfl

/-- A rendered plain segment never parses as an array segment. -/
theorem parseArraySeg_key (k : String) (hk : goodKey k = true) :
    parseArraySeg (renderSeg (.key k)) = none :=
  parseArraySeg_noopen _ (goodKey_chars k hk).2.2

/-- A rendered path segment contains no dot. -/
theorem segChars_nodot (s : PathSeg) (h : goodKey (segKey s) = true) :
    ∀ c ∈ (renderSeg s).toList, c ≠ '.' := by
  cases s with
  | key k => exact (goodKey_chars k h).2.1
  | keyIdx k i =>
      intro c hc
      rw [renderSeg_idx_toList] at hc
      simp only [List.mem_append, List.mem_cons, List.mem_singleton,
        List.not_mem_nil, or_false] at hc
      rcases hc with hc | hc | hc | hc
      · exact (goodKey_chars k h).2.1 c hc
      · subst hc; decide
      · exact digit_ne_dot c (natToStrChars_digits i c hc)
      · subst hc; decide

/-- The step flattening of a path distributes over cons. -/
theorem flatSteps_cons (s : PathSeg) (rest : List PathSeg) :
    flatSteps (s :: rest) = toSteps s ++ flatSteps rest := by
  simp [flatSteps]

/-- Tail characters of a flattened path peel one rendered segment and a
dot. -/
theorem tail_flat (s : PathSeg) (L : List PStep) :
    tailChars (toSteps s ++ L) = '.' :: ((renderSeg s).toList ++ tailChars L) := by
  cases s with
  | key k => simp [toSteps, tailChars, renderSeg]
  | keyIdx k i =>
      rw [renderSeg_idx_toList]
      simp [toSteps, tailChars]

/-- Characters of a rendered path: first segment, then dot-joined
segments. -/
theorem renderPath_chars (s0 : PathSeg) (rest : List PathSeg)
    (h : goodKey (segKey s0) = true) :
    (renderPath (s0 :: rest)).toList =
      (renderSeg s0).toList ++ tailChars (flatSteps rest) := by
  cases s0 with
  | key k =>
      show (renderFrom "" (flatSteps (.key k :: rest))).toList = _
      rw [flatSteps_cons]
      show (renderFrom "" (.fld k :: flatSteps rest)).toList = _
      rw [render_fld_chars k _ (goodKey_chars k h).1]
      rfl
  | keyIdx k i =>
      show (renderFrom "" (flatSteps (.keyIdx k i :: rest))).toList = _
      rw [flatSteps_cons]
      show (renderFrom "" (.fld k :: .idx i :: flatSteps rest)).toList = _
      rw [render_fld_chars k _ (goodKey_chars k h).1, renderSeg_idx_toList,
        tailChars]
      simp

/-- Splitting a dot-free block followed by the flattened tail of a path
with addressable keys yields the block and the rendered segments. -/
theorem split_tail_flat : ∀ (segs : List PathSeg) (l0 : List Char),
    (∀ c ∈ l0, c ≠ '.') → (∀ s ∈ segs, goodKey (segKey s) = true) →
    splitDotChars (l0 ++ tailChars (flatSteps segs)) =
      l0 :: segs.map (fun s => (renderSeg s).toList)
  | [], l0, h0, _ => by
      show splitDotChars (l0 ++ tailChars []) = [l0]
      simp only [tailChars, List.append_nil]
      exact split_nodot l0 h0
  | s :: rest, l0, h0, hg => by
      rw [flatSteps_cons, tail_flat, split_append_dot l0 _ h0,
        split_tail_flat rest (renderSeg s).toList
          (segChars_nodot s (hg s (by simp)))
          (fun s2 hs2 => hg s2 (by simp [hs2])),
        List.map_cons]

/-- The walkSet split of a rendered nonempty path with addressable keys
recovers the rendered segments. -/
theorem split_renderPath (segs : List PathSeg) (hne : segs ≠ [])
    (hg : ∀ s ∈ segs, goodKey (segKey s) = true) :
    splitDotStr (renderPath segs) = segs.map renderSeg := by
  cases segs with
  | nil => exact absurd rfl hne
  | cons s0 rest =>
      unfold splitDotStr
      rw [renderPath_chars s0 rest (hg s0 (by simp)),
        split_tail_flat rest (renderSeg s0).toList
          (segChars_nodot s0 (hg s0 (by simp)))
          (fun s2 hs2 => hg s2 (by simp [hs2]))]
      simp only [List.map_cons, List.map_map]
      exact congrArg₂ List.cons rfl (List.map_congr_left (fun st _ => rfl))

/-- The flattened steps of a path with addressable keys form a valid
address. -/
theorem flat_valid : ∀ (segs : List PathSeg),
    (∀ s ∈ segs, goodKey (segKey s) = true) →
    validAddr (flatSteps segs) = true
  | [], _ => rfl
  | s :: rest, hg => by
      rw [flatSteps_cons]
      have hr : validAddr (flatSteps rest) = true :=
        flat_valid rest (fun s2 hs2 => hg s2 (by simp [hs2]))
      have hk : goodKey (segKey s) = true := hg s (by simp)
      cases s with
      | key k =>
          simp only [toSteps, validAddr, List.all_append, List.all_cons,
            List.all_nil, Bool.and_eq_true]
          exact ⟨⟨hk, trivial⟩, by simpa [validAddr] using hr⟩
      | keyIdx k i =>
          simp only [toSteps, validAddr, List.all_append, List.all_cons,
            List.all_nil, Bool.and_eq_true]
          exact ⟨⟨hk, trivial, trivial⟩,
            by simpa [validAddr] using hr⟩

/-- A nonempty path flattens to a nonempty address. -/
theorem flat_ne (segs : List PathSeg) (hne : segs ≠ []) :
    flatSteps segs ≠ [] := by
  cases segs with
  | nil => exact absurd rfl hne
  | cons s rest =>
      rw [flatSteps_cons]
      cases s <;> simp [toSteps]

/-- Length of a replicated item list. -/
theorem repl_length : ∀ (n : Nat) (v : JValue),
    (JItems.replicate n v).length = n
  | 0, _ => rfl
  | n + 1, v => by
      simp [JItems.replicate, JItems.length, repl_length n v]
      omega

/-- Item at a position of a replicated list. -/
theorem repl_get_lt : ∀ (n i : Nat) (v : JValue), i < n →
    (JItems.replicate n v).get? i = some v
  | 0, i, v, h => by omega
  | n + 1, 0, v, _ => rfl
  | n + 1, i + 1, v, h => by
      show (JItems.replicate n v).get? i = some v
      exact repl_get_lt n i v (by omega)

/-- Setting an item preserves the length. -/
theorem setI_length : ∀ (xs : JItems) (i : Nat) (v : JValue),
    (xs.set i v).length = xs.length
  | .nil, _, _ => rfl
  | .cons x rest, 0, v => rfl
  | .cons x rest, i + 1, v => by
      simp [JItems.set, JItems.length, setI_length rest i v]

/-- Setting an item within bounds makes the position read it back. -/
theorem setI_get : ∀ (xs : JItems) (i : Nat) (v : JValue), i < xs.length →
    (xs.set i v).get? i = some v
  | .nil, i, v, h => by simp [JItems.length] at h
  | .cons x rest, 0, v, _ => rfl
  | .cons x rest, i + 1, v, h => by
      show (rest.set i v).get? i = some v
      refine setI_get rest i v ?_
      simp [JItems.length] at h
      omega

/-- The last walkSet step on a plain segment is a property write. -/
theorem walkSetLast_plain (o : JValue) (seg : String) (V : JValue)
    (hpn : parseArraySeg seg = none) :
    walkSetLast o seg V = jWrite o seg V := by
  unfold walkSetLast
  rw [hpn]

/-- The last walkSet step on an array segment: length prelude, element
write, write back. -/
theorem walkSetLast_arr (o : JValue) (seg k : String) (i : Nat) (V : JValue)
    (hps : parseArraySeg seg = some (k, i)) :
    walkSetLast o seg V = (do
      let object ← walkSetArrPre o k i
      let a ← jRead object k
      let a2 ← jWriteIdx a i V
      jWrite object k a2) := by
  unfold walkSetLast
  rw [hps]

/-- One-segment walkSet runs the last step and returns its container
twice. -/
theorem walkSetSegs_single (o : JValue) (seg : String) (V : JValue) :
    walkSetSegs o [seg] V = (do
      let object ← walkSetLast o seg V
      Except.ok (object, object)) := rfl

/-- The multi-segment walkSet step over a plain segment. -/
theorem walkSetSegs_cons_plain (o : JValue) (seg seg2 : String)
    (rest : List String) (V : JValue) (hpn : parseArraySeg seg = none) :
    walkSetSegs o (seg :: seg2 :: rest) V = (do
      let cur ← jRead o seg
      let object ← if truthy cur then pure o else jWrite o seg (.obj .nil)
      let child ← jRead object seg
      let res ← walkSetSegs child (seg2 :: rest) V
      let object ← jWrite object seg res.1
      Except.ok (object, res.2)) := by
  conv_lhs => rw [walkSetSegs]
  rw [hpn]

/-- The multi-segment walkSet step over an array segment. -/
theorem walkSetSegs_cons_arr (o : JValue) (seg seg2 : String)
    (rest : List String) (k : String) (i : Nat) (V : JValue)
    (hps : parseArraySeg seg = some (k, i)) :
    walkSetSegs o (seg :: seg2 :: rest) V = (do
      let object ← walkSetArrPre o k i
      let a ← jRead object k
      let elt ← jReadIdx a i
      let a2 ← if truthy elt then pure a else jWriteIdx a i (.obj .nil)
      let object ← jWrite object k a2
      let child ← jReadIdx a2 i
      let res ← walkSetSegs child (seg2 :: rest) V
      let a3 ← jWriteIdx a2 i res.1
      let object ← jWrite object k a3
      Except.ok (object, res.2)) := by
  conv_lhs => rw [walkSetSegs]
  rw [hps]

/-- The walkSet array prelude on a fresh object: create the named array
and grow it up to the index with holes. -/
theorem arrpre_fresh (k : String) (i : Nat) :
    walkSetArrPre (.obj .nil) k i =
      .ok (.obj (.cons k (.arr (JItems.replicate (i + 1) .undef)) .nil)) := by
  unfold walkSetArrPre
  rw [show jRead (.obj .nil) k = .ok .undef by simp [jRead, lookupField]]
  simp only [bind, Except.bind, truthy, Bool.false_eq_true, if_false,
    jWrite, setField]
  rw [show jRead (.obj (.cons k (.arr .nil) .nil)) k = .ok (.arr .nil) by
    simp [jRead, lookupField]]
  simp only [jLength, JItems.length]
  rw [if_pos (by omega : 0 < i + 1)]
  simp [JItems.append]

/-- A walkGet step that owns its key reads on. -/
theorem walkGetSegs_hit (o : JValue) (k : String) (rest : List String)
    (h1 : truthy o = true) (h2 : isObject o = true) (h3 : keyIn o k = true) :
    walkGetSegs o (k :: rest) = walkGetSegs (readOwn o k) rest := by
  simp [walkGetSegs, h1, h2, h3]

/-- walkSet from a fresh root along a rendered well-formed path builds
the nested containers and walkGet reads the written value back along the
flattened steps. -/
theorem walk_build : ∀ (segs : List PathSeg), segs ≠ [] →
    (∀ s ∈ segs, goodKey (segKey s) = true) → ∀ (V : JValue),
    ∃ R ret, walkSetSegs (.obj .nil) (segs.map renderSeg) V = .ok (R, ret) ∧
      walkGetSegs R ((flatSteps segs).map stepStr) = V
  | [], hne, _, _ => absurd rfl hne
  | [.key k], _, hg, V => by
      have hk : goodKey k = true := hg (.key k) (by simp)
      refine ⟨.obj (.cons k V .nil), .obj (.cons k V .nil), ?_, ?_⟩
      · rw [List.map_cons, List.map_nil, walkSetSegs_single,
          walkSetLast_plain _ _ _ (parseArraySeg_key k hk)]
        show (do
          let object ← jWrite (.obj .nil) (renderSeg (.key k)) V
          Except.ok (object, object) :
            Except Unit (JValue × JValue)) = _
        simp [renderSeg, jWrite, setField, bind, Except.bind]
      · rw [show flatSteps [PathSeg.key k] = [PStep.fld k] from rfl,
          List.map_cons, List.map_nil]
        simp only [stepStr]
        rw [walkGetSegs_hit (.obj (.cons k V .nil)) k [] rfl rfl
            (by simp [keyIn, findField]),
          show readOwn (.obj (.cons k V .nil)) k = V by
            simp [readOwn, lookupField]]
        rfl
  | [.keyIdx k i], _, hg, V => by
      have hk : goodKey k = true := hg (.keyIdx k i) (by simp)
      have hsg : setGrow (JItems.replicate (i + 1) .undef) i V =
          (JItems.replicate (i + 1) .undef).set i V := by
        unfold setGrow
        rw [repl_length, if_pos (by omega)]
      refine ⟨.obj (.cons k
          (.arr ((JItems.replicate (i + 1) .undef).set i V)) .nil),
        .obj (.cons k
          (.arr ((JItems.replicate (i + 1) .undef).set i V)) .nil), ?_, ?_⟩
      · have e1 : jRead (.obj (.cons k (.arr (JItems.replicate (i + 1)
            .undef)) .nil)) k
            = .ok (.arr (JItems.replicate (i + 1) .undef)) := by
          simp [jRead, lookupField]
        rw [List.map_cons, List.map_nil, walkSetSegs_single,
          walkSetLast_arr _ _ k i _ (parseArraySeg_render k i hk),
          arrpre_fresh]
        simp [bind, Except.bind, e1, jWriteIdx, hsg, jWrite, setField]
      · rw [show flatSteps [PathSeg.keyIdx k i]
            = [PStep.fld k, PStep.idx i] from rfl,
          List.map_cons, List.map_cons, List.map_nil]
        simp only [stepStr]
        have hlen : ((JItems.replicate (i + 1) .undef).set i V).length
            = i + 1 := by rw [setI_length, repl_length]
        have hget : ((JItems.replicate (i + 1) .undef).set i V).get? i
            = some V := setI_get _ _ _ (by rw [repl_length]; omega)
        rw [walkGetSegs_hit (.obj (.cons k
              (.arr ((JItems.replicate (i + 1) .undef).set i V)) .nil)) k
              [natToStr i] rfl rfl (by simp [keyIn, findField]),
          show readOwn (.obj (.cons k
              (.arr ((JItems.replicate (i + 1) .undef).set i V)) .nil)) k
            = .arr ((JItems.replicate (i + 1) .undef).set i V) by
            simp [readOwn, lookupField],
          walkGetSegs_hit (.arr ((JItems.replicate (i + 1) .undef).set i V))
            (natToStr i) [] rfl rfl
            (by simp [keyIn, parseCanonIdx_natToStr, hlen]),
          show readOwn (.arr ((JItems.replicate (i + 1) .undef).set i V))
              (natToStr i) = V by
            simp [readOwn, parseCanonIdx_natToStr, hget]]
        rfl
  | .key k :: s2 :: rest, _, hg, V => by
      have hk : goodKey k = true := hg (.key k) (by simp)
      obtain ⟨R1, ret, hset, hget⟩ := walk_build (s2 :: rest) (by simp)
        (fun s hs => hg s (by simp [hs])) V
      rw [List.map_cons] at hset
      refine ⟨.obj (.cons k R1 .nil), ret, ?_, ?_⟩
      · rw [List.map_cons, List.map_cons,
          walkSetSegs_cons_plain _ _ _ _ _ (parseArraySeg_key k hk)]
        show (do
          let cur ← jRead (.obj .nil) k
          let object ← if truthy cur then pure (JValue.obj .nil)
            else jWrite (.obj .nil) k (.obj .nil)
          let child ← jRead object k
          let res ← walkSetSegs child (renderSeg s2 :: rest.map renderSeg) V
          let object ← jWrite object k res.1
          Except.ok (object, res.2) : Except Unit (JValue × JValue)) = _
        have e1 : jRead (.obj .nil) k = .ok .undef := by
          simp [jRead, lookupField]
        have e2 : jRead (.obj (.cons k (.obj .nil) .nil)) k
            = .ok (.obj .nil) := by simp [jRead, lookupField]
        simp [bind, Except.bind, e1, e2, truthy, jWrite, setField, hset]
      · rw [flatSteps_cons, show toSteps (.key k) = [PStep.fld k] from rfl,
          List.singleton_append, List.map_cons]
        simp only [stepStr]
        rw [walkGetSegs_hit (.obj (.cons k R1 .nil)) k
            ((flatSteps (s2 :: rest)).map stepStr) rfl rfl
            (by simp [keyIn, findField]),
          show readOwn (.obj (.cons k R1 .nil)) k = R1 by
            simp [readOwn, lookupField]]
        exact hget
  | .keyIdx k i :: s2 :: rest, _, hg, V => by
      have hk : goodKey k = true := hg (.keyIdx k i) (by simp)
      obtain ⟨R1, ret, hset, hget⟩ := walk_build (s2 :: rest) (by simp)
        (fun s hs => hg s (by simp [hs])) V
      rw [List.map_cons] at hset
      have hsg1 : setGrow (JItems.replicate (i + 1) .undef) i (.obj .nil) =
          (JItems.replicate (i + 1) .undef).set i (.obj .nil) := by
        unfold setGrow
        rw [repl_length, if_pos (by omega)]
      have hlen1 : ((JItems.replicate (i + 1) .undef).set i
          (.obj .nil)).length = i + 1 := by rw [setI_length, repl_length]
      have hsg2 : setGrow ((JItems.replicate (i + 1) .undef).set i
            (.obj .nil)) i R1 =
          ((JItems.replicate (i + 1) .undef).set i (.obj .nil)).set i R1 := by
        unfold setGrow
        rw [hlen1, if_pos (by omega)]
      have hget1 : ((JItems.replicate (i + 1) .undef).set i
          (.obj .nil)).get? i = some (.obj .nil) :=
        setI_get _ _ _ (by rw [repl_length]; omega)
      refine ⟨.obj (.cons k (.arr (((JItems.replicate (i + 1) .undef).set i
          (.obj .nil)).set i R1)) .nil), ret, ?_, ?_⟩
      · rw [List.map_cons, List.map_cons,
          walkSetSegs_cons_arr _ _ _ _ k i _ (parseArraySeg_render k i hk)]
        show (do
          let object ← walkSetArrPre (.obj .nil) k i
          let a ← jRead object k
          let elt ← jReadIdx a i
          let a2 ← if truthy elt then pure a else jWriteIdx a i (.obj .nil)
          let object ← jWrite object k a2
          let child ← jReadIdx a2 i
          let res ← walkSetSegs child (renderSeg s2 :: rest.map renderSeg) V
          let a3 ← jWriteIdx a2 i res.1
          let object ← jWrite object k a3
          Except.ok (object, res.2) : Except Unit (JValue × JValue)) = _
        have e1 : jRead (.obj (.cons k (.arr (JItems.replicate (i + 1)
              .undef)) .nil)) k
            = .ok (.arr (JItems.replicate (i + 1) .undef)) := by
          simp [jRead, lookupField]
        have e2 : jReadIdx (.arr (JItems.replicate (i + 1) .undef)) i
            = .ok .undef := by
          simp [jReadIdx, repl_get_lt (i + 1) i JValue.undef (by omega)]
        have e3 : jWriteIdx (.arr (JItems.replicate (i + 1) .undef)) i
              (.obj .nil)
            = .ok (.arr ((JItems.replicate (i + 1) .undef).set i
              (.obj .nil))) := by simp [jWriteIdx, hsg1]
        have e4 : jReadIdx (.arr ((JItems.replicate (i + 1) .undef).set i
              (.obj .nil))) i = .ok (.obj .nil) := by
          simp [jReadIdx, hget1]
        have e5 : jWriteIdx (.arr ((JItems.replicate (i + 1) .undef).set i
              (.obj .nil))) i R1
            = .ok (.arr (((JItems.replicate (i + 1) .undef).set i
              (.obj .nil)).set i R1)) := by simp [jWriteIdx, hsg2]
        rw [arrpre_fresh]
        simp [bind, Except.bind, e1, e2, e3, e4, e5, truthy, jWrite,
          setField, hset]
      · have hlen2 : (((JItems.replicate (i + 1) .undef).set i
            (.obj .nil)).set i R1).length = i + 1 := by
          rw [setI_length, hlen1]
        have hget2 : (((JItems.replicate (i + 1) .undef).set i
            (.obj .nil)).set i R1).get? i = some R1 :=
          setI_get _ _ _ (by rw [hlen1]; omega)
        rw [flatSteps_cons,
          show toSteps (.keyIdx k i) = [PStep.fld k, PStep.idx i] from rfl,
          List.cons_append, List.cons_append, List.nil_append,
          List.map_cons, List.map_cons]
        simp only [stepStr]
        rw [walkGetSegs_hit (.obj (.cons k (.arr (((JItems.replicate (i + 1)
              .undef).set i (.obj .nil)).set i R1)) .nil)) k
            (natToStr i :: (flatSteps (s2 :: rest)).map stepStr) rfl rfl
            (by simp [keyIn, findField]),
          show readOwn (.obj (.cons k (.arr (((JItems.replicate (i + 1)
              .undef).set i (.obj .nil)).set i R1)) .nil)) k
            = .arr (((JItems.replicate (i + 1) .undef).set i
              (.obj .nil)).set i R1) by simp [readOwn, lookupField],
          walkGetSegs_hit (.arr (((JItems.replicate (i + 1) .undef).set i
              (.obj .nil)).set i R1)) (natToStr i)
            ((flatSteps (s2 :: rest)).map stepStr) rfl rfl
            (by simp [keyIn, parseCanonIdx_natToStr, hlen2]),
          show readOwn (.arr (((JItems.replicate (i + 1) .undef).set i
              (.obj .nil)).set i R1)) (natToStr i) = R1 by
            simp [readOwn, parseCanonIdx_natToStr, hget2]]
        exact hget

/-- C4.  The round trip fails on arbitrary roots: walking a.b over a root
whose property a holds the primitive 5 keeps the truthy intermediate,
and the final assignment into the number throws a TypeError under the
strict mode of the ES module, so walkSet never returns a value to read
back; walkGet on the untouched root reads undefined. -/
theorem fire7_C4_counterexample :
    walkSet (.obj (.cons "a" (.num 5) .nil)) "a.b" (.num 1) = .error () ∧
    walkGet (.obj (.cons "a" (.num 5) .nil)) "a.b" = .undef :=
  ⟨by decide, by decide⟩

/-- C4 (amended).  Over a fresh root walkSet builds every intermediate
container itself, and then walkGet returns the written value: for every
well-formed structural path (nonempty, object keys addressable, bracket
segments for sequence positions) and every value, set followed by get on
the mutated root yields the value back. -/
theorem fire7_C4_roundtrip (segs : List PathSeg) (hw : wfPath segs)
    (V : JValue) :
    ∃ R ret, walkSet (.obj .nil) (renderPath segs) V = .ok (R, ret) ∧
      walkGet R (renderPath segs) = V := by
  obtain ⟨hne, hgood⟩ := hw
  obtain ⟨R, ret, hset, hget⟩ := walk_build segs hne hgood V
  refine ⟨R, ret, ?_, ?_⟩
  · unfold walkSet
    rw [split_renderPath segs hne hgood]
    exact hset
  · unfold walkGet
    rw [show renderPath segs = renderFrom "" (flatSteps segs) from rfl,
      pathSegs_render (flatSteps segs) (flat_ne segs hne)
        (flat_valid segs hgood)]
    exact hget

/-- C4 witness: the path a.b[1] with value 7 from a fresh root. -/
theorem fire7_C4_roundtrip_witness :
    wfPath [PathSeg.key "a", PathSeg.keyIdx "b" 1] ∧
    renderPath [PathSeg.key "a", PathSeg.keyIdx "b" 1] = "a.b[1]" ∧
    (∃ R ret, walkSet (.obj .nil)
        (renderPath [PathSeg.key "a", PathSeg.keyIdx "b" 1]) (.num 7)
        = .ok (R, ret) ∧
      walkGet R (renderPath [PathSeg.key "a", PathSeg.keyIdx "b" 1])
        = .num 7) :=
  ⟨by unfold wfPath; decide, by decide,
    fire7_C4_roundtrip [PathSeg.key "a", PathSeg.keyIdx "b" 1]
      (by unfold wfPath; decide) (.num 7)⟩

/-- Nesting wrappers adds depths. -/
theorem Wrap_add : ∀ (a b : Nat) (w : JValue),
    Wrap a (Wrap b w) = Wrap (a + b) w
  | 0, b, w => by simp [Wrap]
  | a + 1, b, w => by
      show JValue.obj (.cons "next" (Wrap a (Wrap b w)) .nil)
        = Wrap (a + 1 + b) w
      rw [Wrap_add a b w, show a + 1 + b = (a + b) + 1 from by omega]
      rfl

/-- The chain path is the rendering of repeated next steps. -/
theorem chainPath_render : ∀ (n : Nat) (cur : String),
    chainPath cur n = renderFrom cur (List.replicate n (.fld "next"))
  | 0, cur => rfl
  | n + 1, cur => by
      show chainPath (joinProp cur "next") n = _
      rw [chainPath_render n (joinProp cur "next")]
      rfl

/-- Dropping the doubled wrapper prefix of a chain path yields the chain
path from the single prefix: the slice(5) of fillRefs. -/
theorem strDrop_chain (n : Nat) :
    strDrop (chainPath "data.data" n) 5 = chainPath "data" n := by
  unfold strDrop
  rw [chainPath_render, renderFrom_toList _ _ (by decide),
    show ("data.data" : String).toList
      = ("data." : String).toList ++ ("data" : String).toList from rfl,
    List.append_assoc,
    show (5 : Nat) = ("data." : String).toList.length from rfl,
    List.drop_left,
    ← renderFrom_toList _ _ (by decide), ← chainPath_render]
  rfl

/-- On property-only addresses the tail characters are already the
dot-separated form. -/
theorem tail_eq_dot : ∀ n : Nat,
    tailChars (List.replicate n (.fld "next")) =
      dotChars (List.replicate n (.fld "next"))
  | 0 => rfl
  | n + 1 => by
      show '.' :: (("next" : String).toList ++
          tailChars (List.replicate n (.fld "next")))
        = '.' :: ((stepStr (.fld "next")).toList ++
          dotChars (List.replicate n (.fld "next")))
      rw [tail_eq_dot n]
      rfl

/-- Repeated next steps form a valid address. -/
theorem repl_valid : ∀ n : Nat,
    validAddr (List.replicate n (.fld "next")) = true
  | 0 => rfl
  | n + 1 => by
      show validAddr (.fld "next" :: List.replicate n (.fld "next")) = true
      simp only [validAddr, List.all_cons, Bool.and_eq_true]
      exact ⟨by decide, by simpa [validAddr] using repl_valid n⟩

/-- The walkSet split of a chain path: the prefix and one next segment
per level. -/
theorem split_chain : ∀ n : Nat,
    splitDotStr (chainPath "data" n) = "data" :: List.replicate n "next" := by
  intro n
  unfold splitDotStr
  rw [chainPath_render, renderFrom_toList _ _ (by decide), tail_eq_dot n,
    split_dotChars (List.replicate n (.fld "next")) ("data".toList)
      (by decide) (repl_valid n)]
  simp only [List.map_cons, List.map_map, List.map_replicate]
  rfl

/-- A chain wrapper is not a Firestore reference: it owns no onSnapshot. -/
theorem isFR_wrap (n : Nat) (w : JValue) :
    isFirestoreRef (Wrap (n + 1) w) = false := by
  show truthy (lookupField (.cons "next" (Wrap n w) .nil) "onSnapshot")
    = false
  rw [lookupField, if_neg (by decide)]
  rfl

/-- The scan of a chain document finds exactly its innermost reference,
at the chain path. -/
theorem extract_chain : ∀ (j kk : Nat) (cur : String),
    extractRefs (Wrap (j + 1) (.ref kk .nil)) cur [] =
      [(chainPath cur (j + 1), .ref kk .nil)]
  | 0, kk, cur => by
      show extractProps (.cons "next" (.ref kk .nil) .nil) cur [] = _
      rw [extractProps, if_pos (by rfl : isObject (.ref kk .nil) = true),
        if_pos (by rfl : isFirestoreRef (.ref kk .nil) = true), extractProps]
      rfl
  | j + 1, kk, cur => by
      show extractProps (.cons "next" (Wrap (j + 1) (.ref kk .nil)) .nil)
        cur [] = _
      rw [extractProps,
        if_pos (show isObject (Wrap (j + 1) (.ref kk .nil)) = true from by
          show isObject (.obj _) = true; rfl),
        if_neg (show ¬ isFirestoreRef (Wrap (j + 1) (.ref kk .nil)) = true
          from by rw [isFR_wrap]; simp),
        extractProps, extract_chain j kk (joinProp cur "next")]
      rfl

/-- The innermost value of a chain sits at the repeated next address. -/
theorem structGet_wrap : ∀ (n : Nat) (w : JValue),
    structGet (Wrap n w) (List.replicate n (.fld "next")) = some w
  | 0, w => structGet_nil w
  | n + 1, w => by
      show structGet (.obj (.cons "next" (Wrap n w) .nil))
        (.fld "next" :: List.replicate n (.fld "next")) = some w
      simp only [structGet, findField, if_pos rfl]
      exact structGet_wrap n w

/-- walkSet along the next segments of a chain replaces the innermost
value and returns the innermost wrapper. -/
theorem walk_wrap : ∀ (m : Nat) (w D : JValue),
    walkSetSegs (Wrap (m + 1) w) (List.replicate (m + 1) "next") D =
      .ok (Wrap (m + 1) D, Wrap 1 D)
  | 0, w, D => by
      rw [show (List.replicate 1 "next" : List String) = ["next"] from rfl,
        walkSetSegs_single,
        walkSetLast_plain _ _ _ (by decide : parseArraySeg "next" = none)]
      show (do
        let object ← jWrite (.obj (.cons "next" w .nil)) "next" D
        Except.ok (object, object) : Except Unit (JValue × JValue)) = _
      simp [jWrite, setField, bind, Except.bind, Wrap]
  | m + 1, w, D => by
      have e1 : jRead (Wrap (m + 2) w) "next" = .ok (Wrap (m + 1) w) := by
        rw [show Wrap (m + 2) w
          = .obj (.cons "next" (Wrap (m + 1) w) .nil) from rfl]
        simp [jRead, lookupField]
      have e2 : truthy (Wrap (m + 1) w) = true := by
        rw [show Wrap (m + 1) w
          = .obj (.cons "next" (Wrap m w) .nil) from rfl]
        rfl
      have e3 : jWrite (Wrap (m + 2) w) "next" (Wrap (m + 1) D)
          = .ok (Wrap (m + 2) D) := by
        rw [show Wrap (m + 2) w
            = .obj (.cons "next" (Wrap (m + 1) w) .nil) from rfl,
          show Wrap (m + 2) D
            = .obj (.cons "next" (Wrap (m + 1) D) .nil) from rfl]
        simp [jWrite, setField]
      have ih := walk_wrap m w D
      rw [show (List.replicate (m + 2) "next" : List String)
          = "next" :: "next" :: List.replicate m "next" from rfl,
        walkSetSegs_cons_plain _ _ _ _ _
          (by decide : parseArraySeg "next" = none),
        show ("next" :: List.replicate m "next" : List String)
          = List.replicate (m + 1) "next" from rfl]
      simp [bind, Except.bind, e1, e2, e3, ih, pure, Except.pure]

/-- One splice along a chain path replaces the innermost value of the
chain: the write travels through the discarded wrapper into the shared
structure. -/
theorem splice_chain (m kk : Nat) (D : JValue) :
    spliceOne (Wrap (m + 1) (.ref kk .nil)) (chainPath "data" (m + 1)) D =
      .ok (Wrap (m + 1) D) := by
  have hsplit := split_chain (m + 1)
  have e1 : jRead (wrapData (Wrap (m + 1) (.ref kk .nil))) "data"
      = .ok (Wrap (m + 1) (.ref kk .nil)) := by
    simp [wrapData, jRead, lookupField]
  have e2 : truthy (Wrap (m + 1) (.ref kk .nil)) = true := by
    rw [show Wrap (m + 1) (.ref kk .nil)
      = .obj (.cons "next" (Wrap m (.ref kk .nil)) .nil) from rfl]
    rfl
  have e3 : jWrite (wrapData (Wrap (m + 1) (.ref kk .nil))) "data"
      (Wrap (m + 1) D) = .ok (wrapData (Wrap (m + 1) D)) := by
    simp [wrapData, jWrite, setField]
  have hwalk : walkSet (wrapData (Wrap (m + 1) (.ref kk .nil)))
      (chainPath "data" (m + 1)) D
      = .ok (wrapData (Wrap (m + 1) D), Wrap 1 D) := by
    unfold walkSet
    rw [hsplit,
      show (List.replicate (m + 1) "next" : List String)
        = "next" :: List.replicate m "next" from rfl,
      walkSetSegs_cons_plain _ _ _ _ _
        (by decide : parseArraySeg "data" = none),
      show ("next" :: List.replicate m "next" : List String)
        = List.replicate (m + 1) "next" from rfl]
    simp [bind, Except.bind, e1, e2, e3, pure, Except.pure,
      walk_wrap m (.ref kk .nil) D]
  unfold spliceOne
  rw [hsplit,
    show ("data" :: List.replicate (m + 1) "next" : List String)
      = "data" :: "next" :: List.replicate m "next" from rfl]
  show (do
    let r ← walkSet (wrapData (Wrap (m + 1) (.ref kk .nil)))
      (chainPath "data" (m + 1)) D
    jRead r.1 "data" : Except Unit JValue) = _
  rw [hwalk]
  simp [bind, Except.bind, wrapData, jRead, lookupField]

/-- One unfolding of a fillRefs pass with remaining budget. -/
theorem fillRefsModel_succ (fetch : JValue → Except Unit JValue)
    (obj : JValue) (d : Nat) :
    fillRefsModel fetch obj (d + 1) =
      (match refFetchAll fetch (extractRefs (wrapData obj) "data" []) with
      | .error _ => obj
      | .ok results =>
          match spliceAll obj ((extractRefs (wrapData obj) "data" []).zip
              results) with
          | .error partialObj => partialObj
          | .ok obj2 => fillRefsModel fetch obj2 d) := rfl

/-- One fillRefs pass over a chain: the single found reference is fetched
and its wrapper spliced at the chain path, extending the chain one level
and moving to the next reference. -/
theorem pass_step (m kk d : Nat) :
    fillRefsModel chainFetch (Wrap (m + 1) (.ref kk .nil)) (d + 1) =
      fillRefsModel chainFetch (Wrap (m + 2) (.ref (kk + 1) .nil)) d := by
  have hrefs : extractRefs (wrapData (Wrap (m + 1) (.ref kk .nil)))
      "data" [] = [(chainPath "data.data" (m + 1), .ref kk .nil)] := by
    show extractProps (.cons "data" (Wrap (m + 1) (.ref kk .nil)) .nil)
      "data" [] = _
    rw [extractProps,
      if_pos (show isObject (Wrap (m + 1) (.ref kk .nil)) = true from by
        show isObject (.obj _) = true; rfl),
      if_neg (show ¬ isFirestoreRef (Wrap (m + 1) (.ref kk .nil)) = true
        from by rw [isFR_wrap]; simp),
      extractProps, extract_chain m kk (joinProp "data" "data"),
      show joinProp "data" "data" = "data.data" from by decide]
  have hfetch : refFetchAll chainFetch
      [(chainPath "data.data" (m + 1), .ref kk .nil)]
      = .ok [Wrap 1 (.ref (kk + 1) .nil)] := by
    simp [refFetchAll, chainFetch, bind, Except.bind]
  have hsplice : spliceAll (Wrap (m + 1) (.ref kk .nil))
      [((chainPath "data.data" (m + 1), .ref kk .nil),
        Wrap 1 (.ref (kk + 1) .nil))]
      = .ok (Wrap (m + 2) (.ref (kk + 1) .nil)) := by
    unfold spliceAll
    rw [show strDrop (chainPath "data.data" (m + 1), JValue.ref kk .nil).1 5
        = chainPath "data" (m + 1) from strDrop_chain (m + 1),
      splice_chain m kk (Wrap 1 (.ref (kk + 1) .nil)),
      Wrap_add (m + 1) 1 (.ref (kk + 1) .nil)]
    rfl
  rw [fillRefsModel_succ]
  simp only [hrefs, hfetch, List.zip_cons_cons, List.zip_nil_right,
    List.zip_nil_left, hsplice]

/-- Resolving a chain for d passes splices d wrappers and advances to the
reference d links further. -/
theorem chain_resolve : ∀ (d m kk : Nat),
    fillRefsModel chainFetch (Wrap (m + 1) (.ref kk .nil)) d =
      Wrap (m + 1 + d) (.ref (kk + d) .nil)
  | 0, m, kk => by simp [fillRefsModel]
  | d + 1, m, kk => by
      rw [pass_step m kk d, chain_resolve d (m + 1) (kk + 1),
        show m + 1 + 1 + d = m + 1 + (d + 1) from by omega,
        show kk + 1 + d = kk + (d + 1) from by omega]

/-- C1.  A one-time get of a document holding a chain of nested
references, with depth budget N, resolves exactly N levels: the call
itself resolves with the document data, the detached fill work settles at
the value whose chain has been extended by N spliced wrappers, the
innermost reference (the N+1st of the chain) is still an unresolved
handle at the end of the chain, and with budget 0 the document is
returned unchanged. -/
theorem fire7_C1_chain (N : Nat) :
    getModelSingle (.ok (some (Wrap 1 (.ref 1 .nil)))) chainFetch N =
      .ok (Wrap 1 (.ref 1 .nil), Wrap (N + 1) (.ref (N + 1) .nil)) ∧
    structGet (Wrap (N + 1) (.ref (N + 1) .nil))
      (List.replicate (N + 1) (.fld "next")) = some (.ref (N + 1) .nil) ∧
    fillRefsModel chainFetch (Wrap 1 (.ref 1 .nil)) 0 =
      Wrap 1 (.ref 1 .nil) := by
  refine ⟨?_, structGet_wrap (N + 1) (.ref (N + 1) .nil), rfl⟩
  unfold getModelSingle
  simp only [bind, Except.bind]
  rw [show truthy (Wrap 1 (.ref 1 .nil)) = true from rfl]
  simp only [if_true]
  rw [chain_resolve N 0 1,
    show 0 + 1 + N = N + 1 from by omega]
